import Mathlib

/-!
# AncestryAtlas — verification of the genealogical ingestion pipeline

Shallow embedding of the GEDCOM ingestion pipeline of AncestryAtlas:

* `src/server/utils/gedcomParser.js` — `parseDate`, `parseGedcomFull` and the
  event derivation shared with `parseGedcom`;
* `src/server/utils/geocoder.js` — `cleanPlaceName`, `geocode`, `geocodeAll`
  (the time-based rate gate is not modelled; outbound lookups are counted and
  the external service is an explicit oracle from query strings to results);
* `src/server/routes/events.js` — the body of `POST /import-gedcom`
  (persistence is modelled as an accumulated list of rows);
* `src/client/src/pages/Profile.jsx` — `buildGedcomTree`, `buildFamilyTree`.

JavaScript strings are Lean `String`s processed as `List Char`; JavaScript
`null`/missing is `Option`; JavaScript object maps are association lists with
the engine's key semantics (string keys: insertion order, in-place value
replacement; integer-like keys: ascending key order).  Coordinates are opaque
data (`lat`/`lon` carried around, never computed with), modelled as integers.
-/

namespace AncestryAtlas

/-! ## Character classes and low-level string helpers (JS regex classes) -/

/-- JS `\s` restricted to the characters that can occur in this pipeline. -/
def isWs (c : Char) : Bool :=
  c = ' ' || c = '\t' || c = '\r' || c = '\n' || c = '\x0b' || c = '\x0c'

/-- JS `\d`. -/
def isDigitCh (c : Char) : Bool := '0' ≤ c && c ≤ '9'

/-- JS `\w` = `[A-Za-z0-9_]`. -/
def isWordCh (c : Char) : Bool :=
  ('a' ≤ c && c ≤ 'z') || ('A' ≤ c && c ≤ 'Z') || isDigitCh c || c = '_'

def lowerL (l : List Char) : List Char := l.map Char.toLower

/-- JS `String.prototype.trim` (on our whitespace set). -/
def trimL (l : List Char) : List Char :=
  ((l.dropWhile isWs).reverse.dropWhile isWs).reverse

/-- Split a list at every occurrence of character `c` (like JS `split(c)`,
keeping empty pieces). -/
def splitCh (c : Char) : List Char → List (List Char)
  | [] => [[]]
  | x :: xs =>
    let r := splitCh c xs
    if x = c then [] :: r
    else match r with
      | [] => [[x]]
      | p :: ps => (x :: p) :: ps

/-- Non-empty maximal runs separated by whitespace (the token decomposition
used to interpret the anchored `\s+`-separated date regexes on an already
trimmed string). -/
def wsTokens : List Char → List (List Char)
  | [] => []
  | x :: xs =>
    if isWs x then wsTokens xs
    else match wsTokens xs with
      | [] => [[x]]
      | p :: ps =>
        match xs with
        | [] => [[x]]
        | y :: _ => if isWs y then [x] :: p :: ps else (x :: p) :: ps

def natOfDigits (l : List Char) : Nat :=
  l.foldl (fun n c => 10 * n + (c.toNat - '0'.toNat)) 0

def strOf (l : List Char) : String := ⟨l⟩

/-! ## DateNormalizer — `parseDate` (gedcomParser.js, lines 20–74) -/

/-- The month table `MONTHS` of gedcomParser.js, verbatim. -/
def MONTHS : List (String × String) :=
  [("jan", "01"), ("feb", "02"), ("mar", "03"), ("apr", "04"), ("may", "05"),
   ("jun", "06"), ("jul", "07"), ("aug", "08"), ("sep", "09"), ("oct", "10"),
   ("nov", "11"), ("dec", "12"),
   ("january", "01"), ("february", "02"), ("march", "03"), ("april", "04"),
   ("june", "06"), ("july", "07"), ("august", "08"), ("september", "09"),
   ("october", "10"), ("november", "11"), ("december", "12")]

def monthLookup (m : List Char) : Option String :=
  (MONTHS.lookup (strOf (lowerL m)))

/-- The ordered prefixes denoted by the qualifier alternation
`abt\.?|about|circa|bef\.?|before|aft\.?|after|est\.?|cal\.?` (each `x\.?`
alternative greedily tries `x.` before `x`; alternatives are tried left to
right, so `before`/`after` are shadowed by `bef`/`aft`). -/
def qualifierAlternation : List (List Char) :=
  [['a','b','t','.'], ['a','b','t'], ['a','b','o','u','t'],
   ['c','i','r','c','a'],
   ['b','e','f','.'], ['b','e','f'], ['b','e','f','o','r','e'],
   ['a','f','t','.'], ['a','f','t'], ['a','f','t','e','r'],
   ['e','s','t','.'], ['e','s','t'], ['c','a','l','.'], ['c','a','l']]

/-- `replace(/^(abt\.?|…|cal\.?)\s*`/i, '')`: drop the first case-insensitive
matching alternative plus following whitespace; no match leaves the string
unchanged. -/
def stripQualifier (l : List Char) : List Char :=
  match qualifierAlternation.find? (fun p => lowerL (l.take p.length) = p) with
  | some p => (l.drop p.length).dropWhile isWs
  | none => l

/-- `padStart(2, '0')`. -/
def pad2 (d : List Char) : List Char :=
  if d.length ≥ 2 then d else List.replicate (2 - d.length) '0' ++ d

def isYear4 (y : List Char) : Bool := y.length = 4 && y.all isDigitCh
def isDay12 (d : List Char) : Bool := d ≠ [] && d.length ≤ 2 && d.all isDigitCh
def isWord1 (w : List Char) : Bool := w ≠ [] && w.all isWordCh

def mkIso (y m d : List Char) : String := strOf (y ++ '-' :: m ++ '-' :: d)

/-- Pattern 1: `/^\d{4}$/` → `cleaned + '-01-01'`. -/
def tryYear (c : List Char) : Option String :=
  if isYear4 c then some (strOf (c ++ ['-','0','1','-','0','1'])) else none

/-- The shared day/month/year assembly of patterns 2–4: validate the
captured groups, resolve the month via the table (failing the pattern when
the word is not a month, as the code falls through), pad the day. -/
def dmyCore (d m y : List Char) : Option String :=
  if isDay12 d && isWord1 m && isYear4 y then
    match monthLookup m with
    | some mm => some (mkIso y mm.data (pad2 d))
    | none => none
  else none

/-- Pattern 2: `/^(\d{1,2})-(\w+)-(\d{4})$/`. -/
def tryDash (c : List Char) : Option String :=
  match splitCh '-' c with
  | [d, m, y] => dmyCore d m y
  | _ => none

/-- Pattern 3: `/^(\d{1,2})\s+(\w+)\s+(\d{4})$/`. -/
def tryDMY (c : List Char) : Option String :=
  match wsTokens c with
  | [d, m, y] => dmyCore d m y
  | _ => none

/-- Pattern 4: `/^(\w+)\s+(\d{1,2}),?\s+(\d{4})$/` — the optional comma is
attached to the day token. -/
def tryMDY (c : List Char) : Option String :=
  match wsTokens c with
  | [m, dc, y] =>
    dmyCore (if dc.getLast? = some ',' then dc.dropLast else dc) m y
  | _ => none

/-- Pattern 5: `/^(\w+)\s+(\d{4})$/` → first of month. -/
def tryMY (c : List Char) : Option String :=
  match wsTokens c with
  | [m, y] =>
    if isWord1 m && isYear4 y then
      match monthLookup m with
      | some mm => some (strOf (y ++ '-' :: mm.data ++ ['-','0','1']))
      | none => none
    else none
  | _ => none

/-- The pattern cascade of `parseDate` after cleaning, in source order with
first match winning. -/
def datePatterns (c : List Char) : Option String :=
  match tryYear c with
  | some r => some r
  | none =>
    match tryDash c with
    | some r => some r
    | none =>
      match tryDMY c with
      | some r => some r
      | none =>
        match tryMDY c with
        | some r => some r
        | none => tryMY c

/-- The empty/`unknown` checks and pattern cascade applied to the cleaned
text. -/
def dateCore (cleaned : List Char) : Option String :=
  if cleaned = [] then none
  else if lowerL cleaned = ['u','n','k','n','o','w','n'] then none
  else datePatterns cleaned

/-- `parseDate` on a string already known non-null and non-empty. -/
def parseDateStr (s : String) : Option String :=
  dateCore (trimL (stripQualifier s.data))

/-- `parseDate` of gedcomParser.js: `null`/`''` inputs yield `null`. -/
def parseDate (o : Option String) : Option String :=
  match o with
  | none => none
  | some s => if s = "" then none else parseDateStr s

/-! ## RecordParser — `parseGedcomFull` (gedcomParser.js, lines 241–415)

Each non-blank line is matched against `/^(\d+)\s+(.+)$/`; level-0 lines open
`INDI`/`FAM` records, level-1/2 lines fill sub-fields.  Regex anchors and
backtracking are reproduced exactly (e.g. `\s+(.+)$` surrenders one trailing
whitespace character to `(.+)` when nothing else remains). -/

structure EvFields where
  date : Option String := none
  place : Option String := none
  deriving Repr, DecidableEq

structure Indi where
  gedcomId : String := ""
  givn : String := ""
  surn : String := ""
  sex : Option String := none
  birth : EvFields := {}
  death : EvFields := {}
  burialPlace : Option String := none
  deriving Repr, DecidableEq

structure Fam where
  gedcomFamId : String := ""
  husbandId : Option String := none
  wifeId : Option String := none
  childIds : List String := []
  deriving Repr, DecidableEq

/-- `content.split(/\r?\n/)`: split on `\n`, then remove one trailing `\r`. -/
def splitLines (s : String) : List String :=
  (splitCh '\n' s.data).map fun l =>
    strOf (if l.getLast? = some '\r' then l.dropLast else l)

/-- `/^(\d+)\s+(.+)$/` with backtracking: maximal digit prefix, at least one
whitespace, and a non-empty remainder (when the remainder is all whitespace,
`\s+` gives one character back to `(.+)`). -/
def lineMatch (line : String) : Option (Nat × List Char) :=
  let cs := line.data
  let ds := cs.takeWhile isDigitCh
  if ds = [] then none
  else
    let r1 := cs.drop ds.length
    let ws := r1.takeWhile isWs
    if ws = [] then none
    else
      let r2 := r1.drop ws.length
      if r2 ≠ [] then some (natOfDigits ds, r2)
      else if ws.length ≥ 2 then some (natOfDigits ds, [ws.getLast!])
      else none

/-- `/^(@\S+@)\s+INDI$/` (also used with `FAM`): leading maximal non-space
token shaped `@…@`, whitespace, keyword to end. -/
def matchIdKeyword (keyword : List Char) (rest : List Char) : Option String :=
  let p := rest.takeWhile (fun c => ¬ isWs c)
  let r2 := rest.drop p.length
  let ws := r2.takeWhile isWs
  if p.length ≥ 3 && p.head? = some '@' && p.getLast? = some '@' &&
     ws ≠ [] && r2.drop ws.length = keyword then
    some (strOf p)
  else none

/-- `/^TAG\s+(.+)$/` with the same backtracking as `lineMatch`. -/
def tagValuePlus (tag : List Char) (rest : List Char) : Option String :=
  if rest.take tag.length = tag then
    let r1 := rest.drop tag.length
    let ws := r1.takeWhile isWs
    if ws = [] then none
    else
      let r2 := r1.drop ws.length
      if r2 ≠ [] then some (strOf r2)
      else if ws.length ≥ 2 then some (strOf [ws.getLast!])
      else none
  else none

/-- `/^NAME\s+(.*)$/` — the capture may be empty. -/
def tagValueStar (tag : List Char) (rest : List Char) : Option String :=
  if rest.take tag.length = tag then
    let r1 := rest.drop tag.length
    let ws := r1.takeWhile isWs
    if ws = [] then none else some (strOf (r1.drop ws.length))
  else none

/-- `/^HUSB\s+(@\S+@)$/` (and `WIFE`, `CHIL`): tag, whitespace, then an
`@…@` token running to the end of the line. -/
def tagIdValue (tag : List Char) (rest : List Char) : Option String :=
  if rest.take tag.length = tag then
    let r1 := rest.drop tag.length
    let ws := r1.takeWhile isWs
    let v := r1.drop ws.length
    if ws ≠ [] && v.length ≥ 3 && v.all (fun c => ¬ isWs c) &&
       v.head? = some '@' && v.getLast? = some '@' then
      some (strOf v)
    else none
  else none

/-- `/^SEX\s+(\S)$/`. -/
def matchSex (rest : List Char) : Option Char :=
  if rest.take 3 = ['S','E','X'] then
    let r1 := rest.drop 3
    let ws := r1.takeWhile isWs
    match r1.drop ws.length with
    | [c] => if ws ≠ [] && ¬ isWs c then some c else none
    | _ => none
  else none

/-- Parser state: finished records plus the open record and sub-context. -/
structure PState where
  individuals : List Indi := []
  fams : List Fam := []
  cur : Option Indi := none
  curFam : Option Fam := none
  curEvent : Option String := none
  deriving Repr

/-- Level-1 and level-2 handling inside an open `INDI` record. -/
def handleIndi (indi : Indi) (curEvent : Option String) (level : Nat)
    (rest : List Char) : Indi × Option String :=
  if level = 1 then
    if rest = ['B','I','R','T'] then (indi, some "birth")
    else if rest = ['D','E','A','T'] then (indi, some "death")
    else if rest = ['B','U','R','I'] then (indi, some "burial")
    else
      let ce := if (tagValueStar ['N','A','M','E'] rest).isSome
                then some "name" else none
      match matchSex rest with
      | some c => ({ indi with sex := some (strOf [c.toUpper]) }, ce)
      | none => (indi, ce)
  else if level = 2 then
    match curEvent with
    | some "name" =>
      let i1 := match tagValuePlus ['G','I','V','N'] rest with
        | some v => { indi with givn := strOf (trimL v.data) }
        | none => indi
      let i2 := match tagValuePlus ['S','U','R','N'] rest with
        | some v =>
          let clean := strOf (trimL (v.data.filter (fun c => c ≠ '(' && c ≠ ')')))
          { i1 with surn := clean }
        | none => i1
      (i2, curEvent)
    | some "birth" =>
      let i1 := match tagValuePlus ['D','A','T','E'] rest with
        | some v => { indi with birth := { indi.birth with date := some (strOf (trimL v.data)) } }
        | none => indi
      let i2 := match tagValuePlus ['P','L','A','C'] rest with
        | some v => { i1 with birth := { i1.birth with place := some (strOf (trimL v.data)) } }
        | none => i1
      (i2, curEvent)
    | some "death" =>
      let i1 := match tagValuePlus ['D','A','T','E'] rest with
        | some v => { indi with death := { indi.death with date := some (strOf (trimL v.data)) } }
        | none => indi
      let i2 := match tagValuePlus ['P','L','A','C'] rest with
        | some v => { i1 with death := { i1.death with place := some (strOf (trimL v.data)) } }
        | none => i1
      (i2, curEvent)
    | some "burial" =>
      match tagValuePlus ['P','L','A','C'] rest with
      | some v => ({ indi with burialPlace := some (strOf (trimL v.data)) }, curEvent)
      | none => (indi, curEvent)
    | _ => (indi, curEvent)
  else (indi, curEvent)

/-- Level-1 `HUSB`/`WIFE`/`CHIL` handling inside an open `FAM` record. -/
def handleFam (fam : Fam) (rest : List Char) : Fam :=
  let f1 := match tagIdValue ['H','U','S','B'] rest with
    | some v => { fam with husbandId := some v }
    | none => fam
  let f2 := match tagIdValue ['W','I','F','E'] rest with
    | some v => { f1 with wifeId := some v }
    | none => f1
  match tagIdValue ['C','H','I','L'] rest with
  | some v => { f2 with childIds := f2.childIds ++ [v] }
  | none => f2

def processLine (st : PState) (line : String) : PState :=
  match lineMatch line with
  | none => st
  | some (level, rest) =>
    if level = 0 then
      let st1 : PState :=
        { individuals := st.individuals ++ st.cur.toList
          fams := st.fams ++ st.curFam.toList
          cur := none, curFam := none, curEvent := none }
      match matchIdKeyword ['I','N','D','I'] rest with
      | some gid => { st1 with cur := some { gedcomId := gid } }
      | none =>
        match matchIdKeyword ['F','A','M'] rest with
        | some gid => { st1 with curFam := some { gedcomFamId := gid } }
        | none => st1
    else
      let st2 := match st.cur with
        | some indi =>
          let (indi', ce') := handleIndi indi st.curEvent level rest
          { st with cur := some indi', curEvent := ce' }
        | none => st
      match st2.curFam with
      | some fam =>
        if level = 1 then { st2 with curFam := some (handleFam fam rest) } else st2
      | none => st2

/-! ## EventDeriver — the event construction of `parseGedcomFull`
(gedcomParser.js, lines 347–390; `parseGedcom` lines 174–231 use the same
logic) -/

structure GEvent where
  name : String
  type : String
  title : String
  description : String
  date : String
  rawDate : String
  place : String
  category : String
  deriving Repr, DecidableEq

/-- `[indi.givn, indi.surn].filter(Boolean).join(' ').trim()`. -/
def joinName (givn surn : String) : String :=
  strOf (trimL (String.intercalate " "
    (([givn, surn].filter (fun s => s ≠ ""))) ).data)

/-- `name.split(' ').map(w => w.charAt(0).toUpperCase() + w.slice(1)).join(' ')`
— only the first character of each word is uppercased; the rest of the word
is left unchanged. -/
def capWords (s : String) : String :=
  String.intercalate " " ((splitCh ' ' s.data).map fun w =>
    strOf (match w with
           | [] => []
           | c :: r => c.toUpper :: r))

/-- JS truthiness test `place && place !== '?'` on a nullable string. -/
def placeOk : Option String → Bool
  | none => false
  | some p => p ≠ "" && p ≠ "?"

/-- JS `a || b` on nullable strings (empty string is falsy). -/
def jsOrStr (a b : Option String) : Option String :=
  match a with
  | some s => if s = "" then b else some s
  | none => b

/-- The per-individual event derivation of `parseGedcomFull` (and
`parseGedcom`): a named individual contributes a birth event, a death event
and a burial event, each guarded exactly as in the source. -/
def deriveEvents (indi : Indi) : List GEvent :=
  let nm := joinName indi.givn indi.surn
  if nm = "" then []
  else
    let displayName := capWords nm
    let birthDate := parseDate indi.birth.date
    let deathDate := parseDate indi.death.date
    let birthEvs : List GEvent :=
      match birthDate with
      | some bd =>
        if placeOk indi.birth.place then
          [{ name := displayName, type := "birth",
             title := displayName ++ " - Birth",
             description := "Born: " ++ (indi.birth.date.getD ""),
             date := bd, rawDate := indi.birth.date.getD "",
             place := indi.birth.place.getD "", category := "birth" }]
        else []
      | none => []
    let deathEvs : List GEvent :=
      match deathDate with
      | some dd =>
        if placeOk indi.death.place then
          [{ name := displayName, type := "death",
             title := displayName ++ " - Death",
             description := "Died: " ++ (indi.death.date.getD ""),
             date := dd, rawDate := indi.death.date.getD "",
             place := indi.death.place.getD "", category := "death" }]
        else []
      | none => []
    let burialEvs : List GEvent :=
      if placeOk indi.burialPlace then
        match jsOrStr deathDate birthDate with
        | some bd =>
          [{ name := displayName, type := "burial",
             title := displayName ++ " - Burial",
             description := "Burial place" ++
               (match indi.death.date with
                | some d => if d ≠ "" then " (died: " ++ d ++ ")" else ""
                | none => ""),
             date := bd, rawDate := (jsOrStr indi.death.date indi.birth.date).getD "",
             place := indi.burialPlace.getD "", category := "death" }]
        | none => []
      else []
    birthEvs ++ deathEvs ++ burialEvs

/-- One row of the `people` array returned by `parseGedcomFull`. -/
structure ParsedPerson where
  gedcomId : String
  name : String
  sex : Option String
  birthDate : Option String
  birthPlace : Option String
  deathDate : Option String
  deathPlace : Option String
  deriving Repr, DecidableEq

structure ParseResult where
  events : List GEvent
  people : List ParsedPerson
  families : List Fam
  deriving Repr

/-- `parseGedcomFull(content)`. -/
def parseGedcomFull (content : String) : ParseResult :=
  let st := (splitLines content).foldl processLine {}
  let individuals := st.individuals ++ st.cur.toList
  let famRecords := st.fams ++ st.curFam.toList
  { events := individuals.foldr (fun i acc => deriveEvents i ++ acc) []
    people :=
      (individuals.filter (fun i => joinName i.givn i.surn ≠ "")).map fun i =>
        { gedcomId := i.gedcomId
          name := capWords (joinName i.givn i.surn)
          sex := i.sex
          birthDate := parseDate i.birth.date
          birthPlace := jsOrStr i.birth.place none
          deathDate := parseDate i.death.date
          deathPlace := jsOrStr i.death.place none }
    families := famRecords }

/-! ## PlaceNormalizer — `cleanPlaceName` (geocoder.js, lines 15–50)

Each of the chained `.replace` calls is reproduced with JS regex semantics:
global replacements resume scanning after the replaced text of the source
string, `\b` refers to source positions, and the case-insensitive matching
lowercases both sides. -/

/-- `/\s*-\s*Burial.*$/i` → `''`: cut everything from the leftmost position
where optional whitespace, a dash, optional whitespace and `burial` (any
case) occur. -/
def burialCutAt (u : List Char) : Bool :=
  match u.dropWhile isWs with
  | '-' :: t => lowerL ((t.dropWhile isWs).take 6) = ['b','u','r','i','a','l']
  | _ => false

def cutBurial : List Char → List Char
  | [] => []
  | c :: rest => if burialCutAt (c :: rest) then [] else c :: cutBurial rest

theorem dropWhileLenLe (p : Char → Bool) (l : List Char) :
    (l.dropWhile p).length ≤ l.length := by
  induction l with
  | nil => simp [List.dropWhile]
  | cons c t ih =>
    by_cases h : p c
    · simp [List.dropWhile, h]; omega
    · simp [List.dropWhile, h]

theorem dropWhileConsLt (p : Char → Bool) (l : List Char) (c : Char)
    (r : List Char) (h : l.dropWhile p = c :: r) : r.length < l.length := by
  have h2 := dropWhileLenLe p l
  rw [h] at h2
  simp only [List.length_cons] at h2
  omega

/-- Global case-insensitive replacement of a non-empty literal with `\b` on
both sides (`/\bWORD\b/gi`); `prevWord` tracks whether the previous source
character is a word character.  Each step consumes at least one source
character, so fuel = source length suffices (the fuel-exhausted branch is
unreachable); structural fuel keeps the definition kernel-reducible. -/
def replaceWordCIF (pat target : List Char) : Nat → Bool → List Char → List Char
  | 0, _, l => l
  | _ + 1, _, [] => []
  | fuel + 1, prevWord, c :: rest =>
    if pat ≠ [] && ¬ prevWord &&
       lowerL ((c :: rest).take pat.length) = lowerL pat &&
       (match (c :: rest).drop pat.length with
        | [] => true
        | d :: _ => ¬ isWordCh d) then
      target ++ replaceWordCIF pat target fuel true (rest.drop (pat.length - 1))
    else c :: replaceWordCIF pat target fuel (isWordCh c) rest

def replaceWordCIGo (pat target : List Char) (prevWord : Bool)
    (l : List Char) : List Char :=
  replaceWordCIF pat target l.length prevWord l

/-- Global case-insensitive literal replacement without boundaries
(`/LITERAL/gi`), for a non-empty pattern (structural fuel as above). -/
def replaceLitCIF (pat target : List Char) : Nat → List Char → List Char
  | 0, l => l
  | _ + 1, [] => []
  | fuel + 1, c :: rest =>
    if pat ≠ [] && lowerL ((c :: rest).take pat.length) = lowerL pat then
      target ++ replaceLitCIF pat target fuel (rest.drop (pat.length - 1))
    else c :: replaceLitCIF pat target fuel rest

def replaceLitCIGo (pat target : List Char) (l : List Char) : List Char :=
  replaceLitCIF pat target l.length l

/-- `/,\s*,/g` → `','`: scanning resumes after each match (structural fuel
as above). -/
def collapseCommaPairsF : Nat → List Char → List Char
  | 0, l => l
  | _ + 1, [] => []
  | fuel + 1, c :: rest =>
    if c = ',' then
      match rest.dropWhile isWs with
      | ',' :: r3 => ',' :: collapseCommaPairsF fuel r3
      | _ => ',' :: collapseCommaPairsF fuel rest
    else c :: collapseCommaPairsF fuel rest

def collapseCommaPairs (l : List Char) : List Char :=
  collapseCommaPairsF l.length l

/-- `/,\s*$/` → `''`: remove a final comma followed only by whitespace. -/
def dropTrailingComma (l : List Char) : List Char :=
  match l.reverse.dropWhile isWs with
  | ',' :: t => t.reverse
  | _ => l

/-- `/^\s*,/` → `''`. -/
def dropLeadingComma (l : List Char) : List Char :=
  match l.dropWhile isWs with
  | ',' :: t => t
  | _ => l

/-- `/\s+/g` → `' '` (structural fuel as above). -/
def collapseWsF : Nat → List Char → List Char
  | 0, l => l
  | _ + 1, [] => []
  | fuel + 1, c :: rest =>
    if isWs c then ' ' :: collapseWsF fuel (rest.dropWhile isWs)
    else c :: collapseWsF fuel rest

def collapseWs (l : List Char) : List Char := collapseWsF l.length l

/-- `cleanPlaceName(place)` for a non-null place string. -/
def cleanPlaceName (place : String) : Option String :=
  if place = "" || place = "?" then none
  else
    let l0 := place.data
    let l1 := cutBurial l0
    let l2 := replaceWordCIGo "Ceylon".data "Sri Lanka".data false l1
    let l3 := replaceLitCIGo "(Sri Lanka)".data [] l2
    let l4 := replaceLitCIGo "(Ceylon)".data [] l3
    let l5 := replaceLitCIGo "Western Prov.".data "Western Province".data l4
    let l6 := replaceWordCIGo "Engnd".data "England".data false l5
    let l7 := replaceWordCIGo "Belgique".data "Belgium".data false l6
    let l8 := collapseCommaPairs l7
    let l9 := dropTrailingComma l8
    let l10 := dropLeadingComma l9
    let l11 := trimL (collapseWs l10)
    let cleaned :=
      if lowerL l11 = "brugge".data then "Brugge, Belgium".data
      else if lowerL l11 = "kolberg".data then "Kołobrzeg, Poland".data
      else l11
    if cleaned = [] then none else some (strOf cleaned)

/-! ## GeocodingService — `geocode` / `geocodeAll` (geocoder.js, lines 89–174)

The external service is an explicit oracle from the query string sent to the
lookup endpoint to the first candidate's coordinates (or `none` for an empty
candidate list; network failures and timeouts are caught by the source and
behave like an empty candidate list).  The process-wide cache is threaded as
explicit state; the rate-limiter only spaces requests in time and does not
affect results, so it is not modelled — instead every outbound lookup is
counted, which is what the cache-idempotence claims are about. -/

structure Coord where
  lat : Int
  lon : Int
  deriving Repr, DecidableEq

/-- The in-memory cache: insertion-ordered map from cleaned place names to a
result-or-definitive-absence. -/
abbrev GeoCache := List (String × Option Coord)

def cacheGet (k : String) : GeoCache → Option (Option Coord)
  | [] => none
  | (a, b) :: t => if a = k then some b else cacheGet k t

def cacheSet (k : String) (v : Option Coord) : GeoCache → GeoCache
  | [] => [(k, v)]
  | (a, b) :: t => if a = k then (a, v) :: t else (a, b) :: cacheSet k v t

/-- `cleaned.split(',').map(p => p.trim())`. -/
def commaParts (c : String) : List String :=
  (splitCh ',' c.data).map (fun p => strOf (trimL p))

/-- `parts.slice(-2).join(', ')`. -/
def lastTwoJoined (parts : List String) : String :=
  String.intercalate ", " (parts.drop (parts.length - 2))

/-- `geocode(place)`: returns the result, the updated cache, and the number
of outbound lookups issued (0, 1 or 2). -/
def geocode (oracle : String → Option Coord) (st : GeoCache) (place : String) :
    Option Coord × GeoCache × Nat :=
  match cleanPlaceName place with
  | none => (none, st, 0)
  | some cleaned =>
    match cacheGet cleaned st with
    | some v => (v, st, 0)
    | none =>
      match oracle cleaned with
      | some coord => (some coord, cacheSet cleaned (some coord) st, 1)
      | none =>
        let parts := commaParts cleaned
        if parts.length > 2 then
          match oracle (lastTwoJoined parts) with
          | some coord => (some coord, cacheSet cleaned (some coord) st, 2)
          | none => (none, cacheSet cleaned none st, 2)
        else (none, cacheSet cleaned none st, 1)

/-- `[...new Set(l)]` — first-occurrence deduplication. -/
def dedupFirstGo (seen : List String) : List String → List String
  | [] => []
  | x :: xs =>
    if x ∈ seen then dedupFirstGo seen xs
    else x :: dedupFirstGo (x :: seen) xs

def dedupFirst (l : List String) : List String := dedupFirstGo [] l

/-- The sequential loop of `geocodeAll` over the already deduplicated list:
accumulates the `results` map (only successes are inserted), the cache, and
the total number of outbound lookups. -/
def geocodeList (oracle : String → Option Coord) (st : GeoCache) :
    List String → List (String × Coord) × GeoCache × Nat
  | [] => ([], st, 0)
  | p :: ps =>
    let r := geocode oracle st p
    let rest := geocodeList oracle r.2.1 ps
    ((match r.1 with
      | some coord => (p, coord) :: rest.1
      | none => rest.1), rest.2.1, r.2.2 + rest.2.2)

/-- `geocodeAll(places)` (the progress callback is not passed by the import
route and has no effect on results). -/
def geocodeAll (oracle : String → Option Coord) (st : GeoCache)
    (places : List String) : List (String × Coord) × GeoCache × Nat :=
  geocodeList oracle st (dedupFirst (places.filter (fun p => p ≠ "" && p ≠ "?")))

/-! ## ImportOrchestrator — `POST /import-gedcom` (events.js, lines 53–142)

The route body after file upload: parse, replace stored people/families
(modelled by returning the parsed lists), then either the zero-event early
return or batch geocoding followed by conditional persistence.  Persistence
(`eventQueries.createWithSource`) is modelled as an accumulated list of
rows. -/

/-- One row passed to `eventQueries.createWithSource`. -/
structure PersistedEvent where
  title : String
  description : Option String
  eventDate : String
  lat : Int
  lon : Int
  category : String
  source : String
  deriving Repr, DecidableEq

structure ImportResult where
  imported : Nat
  skipped : Nat
  people : List String
  peopleCount : Nat
  familiesCount : Nat
  message : String
  deriving Repr

/-- Association-list lookup used for `geocoded.get(evt.place)`. -/
def findCoord (k : String) : List (String × Coord) → Option Coord
  | [] => none
  | (a, b) :: t => if a = k then some b else findCoord k t

/-- `[...peopleSet]` insertion-order set accumulation. -/
def addToSet (s : List String) (x : String) : List String :=
  if x ∈ s then s else s ++ [x]

/-- JS `Array.prototype.sort()` compares strings by code units; modelled as
insertion sort under the lexicographic order on `String`. -/
def sortStrs (l : List String) : List String := l.insertionSort (· ≤ ·)

/-- Accumulator of the persistence loop:
(`imported`, `skipped`, `peopleSet`, persisted rows). -/
abbrev ImpAcc := Nat × Nat × List String × List PersistedEvent

/-- One iteration of `for (const evt of parsedEvents) { … }`. -/
def importStep (geocoded : List (String × Coord)) (acc : ImpAcc)
    (evt : GEvent) : ImpAcc :=
  match findCoord evt.place geocoded with
  | none => (acc.1, acc.2.1 + 1, acc.2.2.1, acc.2.2.2)
  | some coords =>
    let row : PersistedEvent :=
      { title := evt.title
        description := if evt.description = "" then none else some evt.description
        eventDate := evt.date
        lat := coords.lat
        lon := coords.lon
        category := if evt.category = "" then "other" else evt.category
        source := "gedcom" }
    (acc.1 + 1, acc.2.1, addToSet acc.2.2.1 evt.name, acc.2.2.2 ++ [row])

def importLoop (geocoded : List (String × Coord)) (events : List GEvent) :
    ImpAcc :=
  events.foldl (importStep geocoded) (0, 0, [], [])

/-- The import route body: returns the JSON result, the rows persisted as
application events, the geocoding cache after the import, and the number of
outbound lookups issued. -/
def importGedcom (oracle : String → Option Coord) (st : GeoCache)
    (content : String) : ImportResult × List PersistedEvent × GeoCache × Nat :=
  let parsed := parseGedcomFull content
  if parsed.events.length = 0 then
    ({ imported := 0, skipped := 0
       people := sortStrs (parsed.people.map (·.name))
       peopleCount := parsed.people.length
       familiesCount := parsed.families.length
       message := "No geocodable events found. Stored " ++
         toString parsed.people.length ++ " people and " ++
         toString parsed.families.length ++ " family links." },
     [], st, 0)
  else
    let places := parsed.events.map (·.place)
    let geo := geocodeAll oracle st places
    let acc := importLoop geo.1 parsed.events
    ({ imported := acc.1, skipped := acc.2.1
       people := sortStrs acc.2.2.1
       peopleCount := parsed.people.length
       familiesCount := parsed.families.length
       message := "Successfully imported " ++ toString acc.1 ++
         " events for " ++ toString acc.2.2.1.length ++
         " people. Stored " ++ toString parsed.people.length ++
         " people and " ++ toString parsed.families.length ++
         " family links." },
     acc.2.2.2, geo.2.1, geo.2.2)

/-! ## TreeBuilder — `buildGedcomTree` / `buildFamilyTree`
(Profile.jsx)

JS objects keyed by GEDCOM ids (strings beginning `@`, never integer-like)
enumerate in insertion order with in-place value replacement; objects keyed
by numeric member ids enumerate integer-like keys in ascending order.  Both
builders mutate per-id node records (attributes, a children list, a
`_hasParent` flag) and then materialize the root forest; here the node map
is threaded explicitly and the tree is materialized at the end with
structural fuel (`people.length` bounds the depth of any acyclic forest). -/

inductive TreeNode where
  | mk : String → List (String × String) → List TreeNode → TreeNode
  deriving Repr

def TreeNode.name : TreeNode → String
  | .mk n _ _ => n

def TreeNode.attributes : TreeNode → List (String × String)
  | .mk _ a _ => a

def TreeNode.children : TreeNode → List TreeNode
  | .mk _ _ c => c

mutual
def countNodes : TreeNode → Nat
  | .mk _ _ cs => 1 + countNodesList cs

def countNodesList : List TreeNode → Nat
  | [] => 0
  | t :: ts => countNodes t + countNodesList ts
end

/-- A row of the `people` payload of `GET /api/events/gedcom-tree`. -/
structure GPerson where
  gedcom_id : String
  name : String
  birth_date : Option String := none
  death_date : Option String := none
  sex : Option String := none
  birth_place : Option String := none
  death_place : Option String := none
  deriving Repr, DecidableEq

/-- A family of the same payload (`husbandId`/`wifeId`/`childIds`). -/
structure GFamIn where
  husbandId : Option String := none
  wifeId : Option String := none
  childIds : List String := []
  deriving Repr, DecidableEq

/-- The mutable per-id node record of the builders (children are kept as
ids of type `κ`; the helper props `_hasParent`/`gedcomId` that `cleanNode`
deletes are simply not materialized). -/
structure Node (κ : Type) where
  name : String
  attrs : List (String × String)
  childIds : List κ
  hasParent : Bool
  deriving Repr, DecidableEq

abbrev GNode := Node String
abbrev GMap := List (String × GNode)

def mget (k : String) : GMap → Option GNode
  | [] => none
  | (a, b) :: t => if a = k then some b else mget k t

/-- JS `obj[k] = v` for string keys: replace in place or append. -/
def mset (k : String) (v : GNode) : GMap → GMap
  | [] => [(k, v)]
  | (a, b) :: t => if a = k then (a, v) :: t else (a, b) :: mset k v t

/-- Update the value at an existing key (no effect when absent). -/
def mupd (k : String) (f : GNode → GNode) : GMap → GMap
  | [] => []
  | (a, b) :: t => if a = k then (a, f b) :: t else (a, b) :: mupd k f t

/-- JS `attributes.x = v`. -/
def aset (k v : String) : List (String × String) → List (String × String)
  | [] => [(k, v)]
  | (a, b) :: t => if a = k then (a, v) :: t else (a, b) :: aset k v t

def aget (k : String) : List (String × String) → Option String
  | [] => none
  | (a, b) :: t => if a = k then some b else aget k t

/-- `p.birth_date ? p.birth_date.substring(0, 4) : ''`. -/
def yearOf (d : Option String) : String :=
  match d with
  | some s => if s = "" then "" else strOf (s.data.take 4)
  | none => ""

def gInitNode (p : GPerson) : GNode :=
  { name := p.name
    attrs :=
      [("born", yearOf p.birth_date),
       ("died", yearOf p.death_date),
       ("sex", p.sex.getD ""),
       ("birthPlace", p.birth_place.getD ""),
       ("deathPlace", p.death_place.getD ""),
       ("birthDate", p.birth_date.getD ""),
       ("deathDate", p.death_date.getD "")]
    childIds := []
    hasParent := false }

def gInitMap (people : List GPerson) : GMap :=
  people.foldl (fun m p => mset p.gedcom_id (gInitNode p) m) []

/-- JS `a || b` on nullable id strings, then the truthiness test
`parentId ? peopleMap[parentId] : null` reduced to the id level. -/
def primaryParentId (f : GFamIn) : Option String :=
  match jsOrStr f.husbandId f.wifeId with
  | some s => if s = "" then none else some s
  | none => none

/-- `'?'`-defaulted year as in `${wifeBorn || '?'} - ${wifeDied || '?'}`. -/
def orQm (s : String) : String := if s = "" then "?" else s

/-- The spouse merge of `buildGedcomTree`: when husband and wife ids are
both truthy and both resolve, the wife's name (and years, when she has any)
are written onto the husband node's attributes. -/
def gSpousePart (m : GMap) (f : GFamIn) : GMap :=
  match f.husbandId, f.wifeId with
  | some h, some w =>
    if h ≠ "" && w ≠ "" then
      match mget h m, mget w m with
      | some _, some wifeNode =>
        let wifeBorn := (aget "born" wifeNode.attrs).getD ""
        let wifeDied := (aget "died" wifeNode.attrs).getD ""
        let m' := mupd h (fun nd => { nd with attrs := aset "spouse" wifeNode.name nd.attrs }) m
        if wifeBorn ≠ "" || wifeDied ≠ "" then
          mupd h (fun nd => { nd with attrs := aset "spouseYears" (orQm wifeBorn ++ " - " ++ orQm wifeDied) nd.attrs }) m'
        else m'
      | _, _ => m
    else m
  | _, _ => m

/-- The child-attachment loop of one FAM record: each resolvable child id
is pushed onto the primary parent's children and marked as having a
parent. -/
def gAttachFold (pid : String) (cs : List String) (mm : GMap) : GMap :=
  cs.foldl
    (fun mm cid =>
      match mget cid mm with
      | some _ =>
        mupd cid (fun nd => { nd with hasParent := true })
          (mupd pid (fun nd => { nd with childIds := nd.childIds ++ [cid] }) mm)
      | none => mm)
    mm

def gFamStep (m : GMap) (f : GFamIn) : GMap :=
  let m1 := gSpousePart m f
  match primaryParentId f with
  | none => m1
  | some pid =>
    match mget pid m1 with
    | none => m1
    | some _ => gAttachFold pid f.childIds m1

/-- The fully processed node map of `buildGedcomTree`. -/
def gedcomMap (people : List GPerson) (families : List GFamIn) : GMap :=
  families.foldl gFamStep (gInitMap people)

/-- Materialization of a node (children were only ever pushed for ids
present in the map; `fuel` bounds recursion depth). -/
def matNode (m : GMap) : Nat → String → TreeNode
  | 0, k =>
    match mget k m with
    | some nd => .mk nd.name nd.attrs []
    | none => .mk "" [] []
  | fuel + 1, k =>
    match mget k m with
    | some nd => .mk nd.name nd.attrs (nd.childIds.map (matNode m fuel))
    | none => .mk "" [] []

/-- Root entries: map entries whose node was never marked `_hasParent`. -/
def rootEntries (m : GMap) : List (String × GNode) :=
  m.filter (fun kv => !kv.2.hasParent)

/-- `buildGedcomTree(people, families)`. -/
def buildGedcomTree (people : List GPerson) (families : List GFamIn) :
    Option TreeNode :=
  if people.length = 0 then none
  else
    let m := gedcomMap people families
    let roots := rootEntries m
    match roots with
    | [] => none
    | [r] => some (matNode m people.length r.1)
    | rs => some (.mk "Ancestors" [] (rs.map (fun kv => matNode m people.length kv.1)))

/-! ### `buildFamilyTree(members, relationships)` -/

structure Member where
  id : Nat
  name : String
  deriving Repr, DecidableEq

structure Rel where
  user_id : Nat
  related_user_id : Nat
  relationship : String
  deriving Repr, DecidableEq

abbrev FNode := Node Nat
abbrev FMap := List (Nat × FNode)

def fget (k : Nat) : FMap → Option FNode
  | [] => none
  | (a, b) :: t => if a = k then some b else fget k t

/-- JS `obj[k] = v` for integer-like keys: such keys enumerate in ascending
numeric order, so the model keeps the association list sorted by key. -/
def finsert (k : Nat) (v : FNode) : FMap → FMap
  | [] => [(k, v)]
  | (a, b) :: t =>
    if k < a then (k, v) :: (a, b) :: t
    else if k = a then (k, v) :: t
    else (a, b) :: finsert k v t

def fupd (k : Nat) (f : FNode → FNode) : FMap → FMap
  | [] => []
  | (a, b) :: t => if a = k then (a, f b) :: t else (a, b) :: fupd k f t

def fInitNode (mb : Member) : FNode :=
  { name := mb.name
    attrs := [("memberId", toString mb.id)]
    childIds := []
    hasParent := false }

def fInitMap (members : List Member) : FMap :=
  members.foldl (fun m mb => finsert mb.id (fInitNode mb) m) []

/-- Processing of one relationship edge: `parent` edges attach and mark;
`spouse` edges set the `spouse` attribute first-declared-wins (a falsy
existing value is overwritten). -/
def fRelStep (m : FMap) (r : Rel) : FMap :=
  let m1 :=
    if r.relationship = "parent" then
      match fget r.user_id m, fget r.related_user_id m with
      | some _, some _ =>
        fupd r.related_user_id (fun nd => { nd with hasParent := true })
          (fupd r.user_id (fun nd => { nd with childIds := nd.childIds ++ [r.related_user_id] }) m)
      | _, _ => m
    else m
  if r.relationship = "spouse" then
    match fget r.user_id m1, fget r.related_user_id m1 with
    | some nd, some other =>
      if (aget "spouse" nd.attrs).getD "" = "" then
        fupd r.user_id (fun x => { x with attrs := aset "spouse" other.name x.attrs }) m1
      else m1
    | _, _ => m1
  else m1

def familyMap (members : List Member) (rels : List Rel) : FMap :=
  rels.foldl fRelStep (fInitMap members)

def fmatNode (m : FMap) : Nat → Nat → TreeNode
  | 0, k =>
    match fget k m with
    | some nd => .mk nd.name nd.attrs []
    | none => .mk "" [] []
  | fuel + 1, k =>
    match fget k m with
    | some nd => .mk nd.name nd.attrs (nd.childIds.map (fmatNode m fuel))
    | none => .mk "" [] []

def fRootEntries (m : FMap) : List (Nat × FNode) :=
  m.filter (fun kv => !kv.2.hasParent)

/-- `buildFamilyTree(members, relationships)`. -/
def buildFamilyTree (members : List Member) (rels : List Rel) :
    Option TreeNode :=
  if members.length = 0 then none
  else
    let m := familyMap members rels
    let roots := fRootEntries m
    match roots with
    | [] => none
    | [r] => some (fmatNode m members.length r.1)
    | rs => some (.mk "Family" [] (rs.map (fun kv => fmatNode m members.length kv.1)))

/-! ## Derived notions used by the claim statements -/

/-- Whether a derived event's place resolved in the geocoding result map. -/
def resolvedB (geocoded : List (String × Coord)) (e : GEvent) : Bool :=
  (findCoord e.place geocoded).isSome

/-- The persisted row built for a resolved event (the `getD` default is
never used on resolved events). -/
def rowOf (geocoded : List (String × Coord)) (evt : GEvent) : PersistedEvent :=
  let coords := (findCoord evt.place geocoded).getD ⟨0, 0⟩
  { title := evt.title
    description := if evt.description = "" then none else some evt.description
    eventDate := evt.date
    lat := coords.lat
    lon := coords.lon
    category := if evt.category = "" then "other" else evt.category
    source := "gedcom" }

/-- Whether a family's primary parent (husband preferred, else wife, both
under JS truthiness) is a known id. -/
def primaryOkKeys (ks : List String) (f : GFamIn) : Bool :=
  match primaryParentId f with
  | some pid => pid ∈ ks
  | none => false

/-- The child ids family `f` attaches under key `k` (as parent). -/
def attachListFor (ks : List String) (f : GFamIn) (k : String) : List String :=
  if primaryOkKeys ks f && primaryParentId f = some k then
    f.childIds.filter (fun c => c ∈ ks)
  else []

/-- Whether family `f` marks key `k` as having a parent. -/
def markedBy (ks : List String) (f : GFamIn) (k : String) : Bool :=
  primaryOkKeys ks f && k ∈ f.childIds

/-- A person id is attached (has a parent) when some family with a known
primary parent lists it as a child. -/
def gAttached (ks : List String) (families : List GFamIn) (k : String) : Bool :=
  families.any (fun f => markedBy ks f k)

/-- The root ids of `buildGedcomTree`: people ids, in input order, never
attached as a child. -/
def gRootIds (people : List GPerson) (families : List GFamIn) : List String :=
  (people.map (·.gedcom_id)).filter
    (fun k => !gAttached (people.map (·.gedcom_id)) families k)

/-- All child-attachment occurrences across the processed node map. -/
def allChildIds (m : GMap) : List String :=
  (m.map (fun kv => kv.2.childIds)).flatten

/-- How many times `c` is listed as a child by families whose primary
parent is a known id (counting one listing per occurrence). -/
def listingCount (ks : List String) (families : List GFamIn) (c : String) : Nat :=
  (families.map (fun f =>
    if primaryOkKeys ks f then (f.childIds.filter (fun x => x ∈ ks)).count c
    else 0)).sum

/-- Ascending insertion of a key, mirroring `finsert`. -/
def insertKeyNat (k : Nat) : List Nat → List Nat
  | [] => [k]
  | a :: t =>
    if k < a then k :: a :: t
    else if k = a then k :: t
    else a :: insertKeyNat k t

/-- The enumeration order of integer-like JS object keys. -/
def sortNat (l : List Nat) : List Nat :=
  l.foldl (fun acc k => insertKeyNat k acc) []

/-- The key list of a family node map. -/
def keysOfF (m : FMap) : List Nat := m.map (·.1)

/-- Whether relationship `r` marks member id `k` as having a parent. -/
def fMarkedBy (ks : List Nat) (r : Rel) (k : Nat) : Bool :=
  r.relationship = "parent" && r.user_id ∈ ks && r.related_user_id ∈ ks &&
    r.related_user_id = k

/-- A member id is attached when some `parent` relationship with known
endpoints points at it. -/
def fAttached (ks : List Nat) (rels : List Rel) (k : Nat) : Bool :=
  rels.any (fun r => fMarkedBy ks r k)

/-- The root ids of `buildFamilyTree`: member ids in ascending order, never
attached as a child. -/
def fRootIds (members : List Member) (rels : List Rel) : List Nat :=
  (sortNat (members.map (·.id))).filter
    (fun k => !fAttached (members.map (·.id)) rels k)

/-! ### Concrete inputs used by counterexamples and witnesses -/

/-- C2: one parent, one child, the child listed by two family links. -/
def c2People : List GPerson :=
  [{ gedcom_id := "@H@", name := "Hank" }, { gedcom_id := "@C@", name := "Carl" }]

def c2Fams : List GFamIn :=
  [{ husbandId := some "@H@", childIds := ["@C@"] },
   { husbandId := some "@H@", childIds := ["@C@"] }]

/-- C4: a person with no derivable events. -/
def c4ContentZero : String :=
  "0 @I1@ INDI\n1 NAME Mary /Jones/\n2 GIVN Mary\n2 SURN Jones"

/-- C4 witness: one fully geocodable birth event. -/
def c4ContentOne : String :=
  "0 @I1@ INDI\n1 NAME John /Smith/\n2 GIVN John\n2 SURN Smith\n1 BIRT\n2 DATE 12 OCT 1982\n2 PLAC Sydney, Australia"

def c4Oracle : String → Option Coord :=
  fun q => if q = "Sydney, Australia" then some ⟨-33, 151⟩ else none

/-- C7: a birth event whose place is the literal `?`. -/
def c7Content : String :=
  "0 @I1@ INDI\n1 NAME John /Smith/\n2 GIVN John\n2 SURN Smith\n1 BIRT\n2 DATE 1900\n2 PLAC ?"

/-- An oracle that never resolves (used where no lookup should happen). -/
def noOracle : String → Option Coord := fun _ => none

/-- C3: two unattached people (gedcom variant). -/
def c3gPeople : List GPerson :=
  [{ gedcom_id := "@A@", name := "Ann" }, { gedcom_id := "@B@", name := "Bob" }]

/-- C3: two unattached members declared out of id order (family variant). -/
def c3Members : List Member := [⟨5, "B"⟩, ⟨3, "A"⟩]

/-! ## Theorems -/

/-- C8 counterexample: the claimed case normalization fails — with given
name "john" and surname "SMITH" the derived display name is "John SMITH"
(only the first character of each word is uppercased; the remaining
characters keep their case), not "John Smith". -/
theorem c8_counterexample :
    capWords (joinName "john" "SMITH") = "John SMITH" ∧
    capWords (joinName "john" "SMITH") ≠ "John Smith" := by
  constructor
  · rfl
  · decide

/-- C8 (amended): the derived display name uppercases the first character
of each space-separated word of `[givn, surn].filter(Boolean).join(' ')`
and leaves all remaining characters unchanged; "john"/"SMITH" yields
"John SMITH", while fully lowercase parts are title-cased ("john"/"smith"
yields "John Smith", "mary ann"/"jones" yields "Mary Ann Jones"). -/
theorem c8_amended :
    capWords (joinName "john" "SMITH") = "John SMITH" ∧
    capWords (joinName "john" "smith") = "John Smith" ∧
    capWords (joinName "mary ann" "jones") = "Mary Ann Jones" ∧
    capWords (joinName "" "smith") = "Smith" := by
  refine ⟨rfl, rfl, rfl, rfl⟩

/-- C9 (code bug): the full qualifier words `before`, `after`, `estimated`
and `calculated` are not stripped — the regex alternation matches the
abbreviations `bef`/`aft`/`est`/`cal` first, leaving a non-date remainder,
so these inputs normalize to `null` instead of the bare-date result, while
the abbreviated forms work; `parseDate`'s own doc comment lists
"after 1698" among the handled inputs. -/
theorem c9_code_bug_eval :
    parseDate (some "after 1698") = none ∧
    parseDate (some "aft 1698") = some "1698-01-01" ∧
    parseDate (some "aft. 1698") = some "1698-01-01" ∧
    parseDate (some "before 1700") = none ∧
    parseDate (some "bef 1700") = some "1700-01-01" ∧
    parseDate (some "estimated 1900") = none ∧
    parseDate (some "est 1900") = some "1900-01-01" ∧
    parseDate (some "calculated 1900") = none ∧
    parseDate (some "cal 1900") = some "1900-01-01" ∧
    parseDate (some "about 1900") = some "1900-01-01" ∧
    parseDate (some "circa 1900") = some "1900-01-01" := by
  refine ⟨rfl, rfl, rfl, rfl, rfl, rfl, rfl, rfl, rfl, rfl, rfl⟩

/-- C1 counterexample: an individual with no name parts but a parsable
birth date and a valid birth place yields no DerivedEvent at all, so the
claimed biconditional (event exists ⇔ date normalizes ∧ place valid) fails
on this record. -/
theorem c1_counterexample :
    ¬ ((∃ e ∈ deriveEvents
          { givn := "", surn := "",
            birth := { date := some "1567", place := some "Paris" } },
          e.type = "birth") ↔
        ((parseDate (some "1567")).isSome = true ∧
         placeOk (some "Paris") = true)) := by
  decide

/-- C10 counterexample: an individual with no name parts but a valid
burial place and a parsable death date yields no burial DerivedEvent, so
the claimed biconditional fails on this record. -/
theorem c10_counterexample :
    ¬ ((∃ e ∈ deriveEvents
          { givn := "", surn := "",
            death := { date := some "1900", place := none },
            burialPlace := some "Old Cemetery" },
          e.type = "burial") ↔
        (placeOk (some "Old Cemetery") = true ∧
         ((parseDate (some "1900")).isSome ∨ (parseDate none).isSome))) := by
  decide

/-- C3 counterexample: in the live-members variant the roots of a forest
are enumerated in ascending member-id order (JS objects enumerate
integer-like keys numerically), not in first-encountered order: members
declared as id 5 then id 3, with no relationships, produce a synthetic
root whose children are [id 3, id 5]. -/
theorem c3_counterexample :
    ((buildFamilyTree [⟨5, "B"⟩, ⟨3, "A"⟩] []).map
      (fun t => t.children.map TreeNode.name)) = some ["A", "B"] ∧
    (["A", "B"] : List String) ≠ ["B", "A"] := by
  constructor
  · rfl
  · decide

/-- C2 counterexample: a child listed by two family links is attached under
both — later attachments are not ignored — so the built tree has the child
node twice and its total node count is 3, not the claimed entity count 2. -/
theorem c2_counterexample :
    ((buildGedcomTree c2People c2Fams).map
      (fun t => t.children.map TreeNode.name)) = some ["Carl", "Carl"] ∧
    (buildGedcomTree c2People c2Fams).map countNodes = some 3 ∧
    ¬ ((buildGedcomTree c2People c2Fams).map countNodes = some 2) := by
  refine ⟨rfl, rfl, by decide⟩

/-- C7 counterexample: a person whose only event candidate has birth place
`"?"` derives no event at all, so the whole import returns
`imported = 0, skipped = 0` (with zero outbound lookups) — not the claimed
`skipped = 1`. -/
theorem c7_counterexample :
    (importGedcom noOracle [] c7Content).1.skipped = 0 ∧
    (importGedcom noOracle [] c7Content).1.imported = 0 ∧
    (importGedcom noOracle [] c7Content).2.2.2 = 0 ∧
    ¬ ((importGedcom noOracle [] c7Content).1.skipped = 1) := by
  refine ⟨rfl, rfl, rfl, by decide⟩

/-- C4 counterexample: on an import with zero DerivedEvents the returned
people list contains the names of all stored people ("Mary Jones"), not
only — as claimed unconditionally — people contributing a persisted event
(of which there are none). -/
theorem c4_counterexample :
    (parseGedcomFull c4ContentZero).events = [] ∧
    ¬ (("Mary Jones" ∈ (importGedcom noOracle [] c4ContentZero).1.people) ↔
        (∃ e ∈ (parseGedcomFull c4ContentZero).events, e.name = "Mary Jones")) := by
  refine ⟨rfl, by decide⟩

/-! ### C6 — cache idempotence of the geocoder -/

theorem cacheGet_set_self (k : String) (v : Option Coord) (st : GeoCache) :
    cacheGet k (cacheSet k v st) = some v := by
  induction st with
  | nil => simp [cacheSet, cacheGet]
  | cons kv t ih =>
    by_cases h : kv.1 = k
    · simp [cacheSet, cacheGet, h]
    · simp [cacheSet, cacheGet, h, ih]

theorem cacheGet_set_ne (k k' : String) (v : Option Coord) (st : GeoCache)
    (h : k' ≠ k) : cacheGet k' (cacheSet k v st) = cacheGet k' st := by
  have h2 : k ≠ k' := Ne.symm h
  induction st with
  | nil => simp [cacheSet, cacheGet, h2]
  | cons kv t ih =>
    by_cases hk : kv.1 = k
    · simp [cacheSet, cacheGet, hk, h2]
    · by_cases hk' : kv.1 = k'
      · simp [cacheSet, cacheGet, hk, hk', h, h2]
      · simp [cacheSet, cacheGet, hk, hk', ih]

/-- Behaviour of a single `geocode` call: either the place normalizes to
nothing (no lookup, no cache change), or the cleaned key is cached with the
returned result afterwards and no other key changes. -/
theorem geocode_spec (oracle : String → Option Coord) (st : GeoCache)
    (place : String) :
    (cleanPlaceName place = none ∧ geocode oracle st place = (none, st, 0)) ∨
    (∃ c, cleanPlaceName place = some c ∧
      ((cacheGet c st = some (geocode oracle st place).1 ∧
          (geocode oracle st place).2.1 = st ∧
          (geocode oracle st place).2.2 = 0) ∨
       (cacheGet c st = none ∧
          (geocode oracle st place).2.1 =
            cacheSet c (geocode oracle st place).1 st))) := by
  cases hc : cleanPlaceName place with
  | none => exact Or.inl ⟨rfl, by simp [geocode, hc]⟩
  | some c =>
    refine Or.inr ⟨c, rfl, ?_⟩
    cases hget : cacheGet c st with
    | some v =>
      left
      simp [geocode, hc, hget]
    | none =>
      refine Or.inr ⟨rfl, ?_⟩
      cases ho : oracle c with
      | some coord => simp [geocode, hc, hget, ho]
      | none =>
        by_cases hp : (commaParts c).length > 2
        · cases ho2 : oracle (lastTwoJoined (commaParts c)) with
          | some coord => simp [geocode, hc, hget, ho, hp, ho2]
          | none => simp [geocode, hc, hget, ho, hp, ho2]
        · simp [geocode, hc, hget, ho, hp]

/-- `geocode` never removes or changes existing cache entries. -/
theorem geocode_mono (oracle : String → Option Coord) (st : GeoCache)
    (place : String) (k : String) (v : Option Coord)
    (h : cacheGet k st = some v) :
    cacheGet k (geocode oracle st place).2.1 = some v := by
  rcases geocode_spec oracle st place with ⟨_, heq⟩ | ⟨c, _, hcase⟩
  · rw [heq]; exact h
  · rcases hcase with ⟨_, hst, _⟩ | ⟨hnone, hst⟩
    · rw [hst]; exact h
    · rw [hst]
      by_cases hk : k = c
      · subst hk; rw [h] at hnone; cases hnone
      · rw [cacheGet_set_ne _ _ _ _ hk]; exact h

/-- After a `geocode` call its cleaned key is cached with the result. -/
theorem geocode_caches (oracle : String → Option Coord) (st : GeoCache)
    (place c : String) (h : cleanPlaceName place = some c) :
    cacheGet c (geocode oracle st place).2.1 =
      some (geocode oracle st place).1 := by
  rcases geocode_spec oracle st place with ⟨hn, _⟩ | ⟨c', hc', hcase⟩
  · rw [hn] at h; cases h
  · rw [h] at hc'; cases hc'
    rcases hcase with ⟨hhit, hst, _⟩ | ⟨_, hst⟩
    · rw [hst]; exact hhit
    · rw [hst]; exact cacheGet_set_self ..

/-- Replaying `geocode` from any state that contains all entries of its
post-state returns the same result, unchanged state, and zero lookups. -/
theorem geocode_stable (oracle : String → Option Coord) (st st' : GeoCache)
    (place : String)
    (hsup : ∀ k v, cacheGet k (geocode oracle st place).2.1 = some v →
      cacheGet k st' = some v) :
    geocode oracle st' place = ((geocode oracle st place).1, st', 0) := by
  cases hc : cleanPlaceName place with
  | none =>
    rcases geocode_spec oracle st place with ⟨_, heq⟩ | ⟨c, hc', _⟩
    · rw [heq]
      simp [geocode, hc]
    · rw [hc] at hc'; cases hc'
  | some c =>
    have hcached := geocode_caches oracle st place c hc
    have hcached' := hsup c _ hcached
    simp [geocode, hc, hcached']

/-- `geocodeList` never removes or changes existing cache entries. -/
theorem geocodeList_mono (oracle : String → Option Coord) :
    ∀ (ps : List String) (st : GeoCache) (k : String) (v : Option Coord),
      cacheGet k st = some v →
      cacheGet k (geocodeList oracle st ps).2.1 = some v := by
  intro ps
  induction ps with
  | nil => intro st k v h; exact h
  | cons p rest ih =>
    intro st k v h
    simp only [geocodeList]
    exact ih _ _ _ (geocode_mono oracle st p k v h)

/-- Replaying the geocoding loop from its own final state changes nothing,
issues no lookups, and returns the same results. -/
theorem geocodeList_idem (oracle : String → Option Coord) :
    ∀ (ps : List String) (st : GeoCache),
      geocodeList oracle (geocodeList oracle st ps).2.1 ps =
        ((geocodeList oracle st ps).1, (geocodeList oracle st ps).2.1, 0) := by
  intro ps
  induction ps with
  | nil => intro st; rfl
  | cons p rest ih =>
    intro st
    simp only [geocodeList]
    have hmono : ∀ k v,
        cacheGet k (geocode oracle st p).2.1 = some v →
        cacheGet k (geocodeList oracle (geocode oracle st p).2.1 rest).2.1 = some v :=
      fun k v h => geocodeList_mono oracle rest _ k v h
    have hstable := geocode_stable oracle st
      (geocodeList oracle (geocode oracle st p).2.1 rest).2.1 p hmono
    rw [hstable]
    have := ih (geocode oracle st p).2.1
    simp only [this]

/-- C6: `geocodeAll` is cache-idempotent — with the external service held
fixed, running the same place list again from the cache produced by a first
run issues zero outbound lookups, leaves the cache unchanged, and returns
results identical to the first run (every cleaned place's outcome, success
or failure, having been cached by the first run). -/
theorem c6_resolveAll_idempotent (oracle : String → Option Coord)
    (st : GeoCache) (places : List String) :
    geocodeAll oracle (geocodeAll oracle st places).2.1 places =
      ((geocodeAll oracle st places).1,
       (geocodeAll oracle st places).2.1, 0) := by
  unfold geocodeAll
  exact geocodeList_idem oracle _ st

/-! ### Shape of `parseDate` results (used by C5 and the event lemmas) -/

theorem strOf_len (l : List Char) : (strOf l).length = l.length := rfl

theorem lookup_val_len2 :
    ∀ (l : List (String × String)), (∀ p ∈ l, p.2.length = 2) →
      ∀ (a : String) (v : String), l.lookup a = some v → v.length = 2 := by
  intro l
  induction l with
  | nil => intro _ a v h; cases h
  | cons p t ih =>
    intro hall a v h
    simp only [List.lookup] at h
    split at h
    · cases h
      exact hall p (List.mem_cons_self _ _)
    · exact ih (fun q hq => hall q (List.mem_cons_of_mem _ hq)) a v h

theorem monthLookup_len (m : List Char) (mm : String)
    (h : monthLookup m = some mm) : mm.length = 2 :=
  lookup_val_len2 MONTHS (by decide) _ mm h

theorem isDay12_len (d : List Char) (h : isDay12 d = true) :
    1 ≤ d.length ∧ d.length ≤ 2 := by
  simp only [isDay12, Bool.and_eq_true, ne_eq, decide_eq_true_eq] at h
  refine ⟨?_, h.1.2⟩
  cases d with
  | nil => exact absurd rfl h.1.1
  | cons a t => simp

theorem pad2_len (d : List Char) (h : isDay12 d = true) :
    (pad2 d).length = 2 := by
  obtain ⟨h3, h2⟩ := isDay12_len d h
  unfold pad2
  by_cases hge : d.length ≥ 2
  · rw [if_pos hge]; omega
  · rw [if_neg hge]
    simp only [List.length_append, List.length_replicate]
    omega

theorem isYear4_len (y : List Char) (h : isYear4 y = true) :
    y.length = 4 := by
  simp only [isYear4, Bool.and_eq_true, decide_eq_true_eq] at h
  exact h.1

theorem tryYear_len (c : List Char) (r : String) (h : tryYear c = some r) :
    r.length = 10 := by
  unfold tryYear at h
  split at h
  · cases h
    have hl := isYear4_len c (by assumption)
    simp [strOf_len, hl]
  · cases h

theorem mkIso_len (y : List Char) (mm : String) (d : List Char)
    (hy : isYear4 y = true) (hm : mm.length = 2) (hd : isDay12 d = true) :
    (mkIso y mm.data (pad2 d)).length = 10 := by
  have hyl := isYear4_len y hy
  have hdl := pad2_len d hd
  have hml : mm.data.length = 2 := hm
  simp [mkIso, strOf_len, List.length_append, List.length_cons, hyl, hml, hdl]

theorem dmyCore_len (d m y : List Char) (r : String)
    (h : dmyCore d m y = some r) : r.length = 10 := by
  unfold dmyCore at h
  split at h
  · rename_i hcond
    split at h
    · rename_i mm hmm
      cases h
      simp only [Bool.and_eq_true] at hcond
      exact mkIso_len y mm d hcond.2 (monthLookup_len m mm hmm) hcond.1.1
    · cases h
  · cases h

theorem tryDash_len (c : List Char) (r : String) (h : tryDash c = some r) :
    r.length = 10 := by
  unfold tryDash at h
  split at h
  · exact dmyCore_len _ _ _ r h
  · cases h

theorem tryDMY_len (c : List Char) (r : String) (h : tryDMY c = some r) :
    r.length = 10 := by
  unfold tryDMY at h
  split at h
  · exact dmyCore_len _ _ _ r h
  · cases h

theorem tryMDY_len (c : List Char) (r : String) (h : tryMDY c = some r) :
    r.length = 10 := by
  unfold tryMDY at h
  split at h
  · exact dmyCore_len _ _ _ r h
  · cases h

theorem tryMY_len (c : List Char) (r : String) (h : tryMY c = some r) :
    r.length = 10 := by
  unfold tryMY at h
  split at h
  · rename_i m y heq
    split at h
    · rename_i hcond
      split at h
      · rename_i mm hmm
        cases h
        simp only [Bool.and_eq_true] at hcond
        have hyl := isYear4_len y hcond.2
        have hml : mm.length = 2 := monthLookup_len m mm hmm
        have hml2 : mm.data.length = 2 := hml
        simp [strOf_len, List.length_append, List.length_cons, hyl, hml2]
      · cases h
    · cases h
  · cases h

theorem datePatterns_len (c : List Char) (r : String)
    (h : datePatterns c = some r) : r.length = 10 := by
  unfold datePatterns at h
  split at h
  · cases h; exact tryYear_len c r (by assumption)
  · split at h
    · cases h; exact tryDash_len c r (by assumption)
    · split at h
      · cases h; exact tryDMY_len c r (by assumption)
      · split at h
        · cases h; exact tryMDY_len c r (by assumption)
        · exact tryMY_len c r h

theorem dateCore_len (c : List Char) (r : String)
    (h : dateCore c = some r) : r.length = 10 := by
  unfold dateCore at h
  split at h
  · cases h
  · split at h
    · cases h
    · exact datePatterns_len _ r h

theorem parseDateStr_len (s : String) (r : String)
    (h : parseDateStr s = some r) : r.length = 10 :=
  dateCore_len _ r h

/-- C5 supporting fact: every successful normalization is a fully
zero-padded 10-character ISO date. -/
theorem parseDate_len (o : Option String) (r : String)
    (h : parseDate o = some r) : r.length = 10 := by
  unfold parseDate at h
  split at h
  · cases h
  · split at h
    · cases h
    · exact parseDateStr_len _ r h

theorem parseDate_ne_empty (o : Option String) (r : String)
    (h : parseDate o = some r) : r ≠ "" := by
  intro he
  have := parseDate_len o r h
  rw [he] at this
  cases this

/-! ### Event-derivation inversion lemmas (shared by C1, C7, C10) -/

/-- `deathDate || birthDate` on parse results: a successful parse is never
the empty string, so JS truthiness coincides with option choice. -/
theorem jsOrStr_parseDates (a b : Option String) :
    jsOrStr (parseDate a) (parseDate b) =
      match parseDate a with
      | some d => some d
      | none => parseDate b := by
  cases ha : parseDate a with
  | none => simp [jsOrStr]
  | some d => simp [jsOrStr, parseDate_ne_empty _ _ ha]

theorem deriveEvents_noname (indi : Indi)
    (h : joinName indi.givn indi.surn = "") : deriveEvents indi = [] := by
  simp [deriveEvents, h]

theorem deriveEvents_birth_iff (indi : Indi)
    (h : joinName indi.givn indi.surn ≠ "") :
    (∃ e ∈ deriveEvents indi, e.type = "birth") ↔
      ((parseDate indi.birth.date).isSome ∧ placeOk indi.birth.place = true) := by
  simp only [deriveEvents, h, if_false, reduceIte]
  rw [jsOrStr_parseDates]
  cases hb : parseDate indi.birth.date <;>
    cases hd : parseDate indi.death.date <;>
      cases hbp : placeOk indi.birth.place <;>
        cases hdp : placeOk indi.death.place <;>
          cases hbu : placeOk indi.burialPlace <;>
            simp_all

theorem deriveEvents_death_iff (indi : Indi)
    (h : joinName indi.givn indi.surn ≠ "") :
    (∃ e ∈ deriveEvents indi, e.type = "death") ↔
      ((parseDate indi.death.date).isSome ∧ placeOk indi.death.place = true) := by
  simp only [deriveEvents, h, if_false, reduceIte]
  rw [jsOrStr_parseDates]
  cases hb : parseDate indi.birth.date <;>
    cases hd : parseDate indi.death.date <;>
      cases hbp : placeOk indi.birth.place <;>
        cases hdp : placeOk indi.death.place <;>
          cases hbu : placeOk indi.burialPlace <;>
            simp_all

theorem deriveEvents_burial_iff (indi : Indi)
    (h : joinName indi.givn indi.surn ≠ "") :
    (∃ e ∈ deriveEvents indi, e.type = "burial") ↔
      (placeOk indi.burialPlace = true ∧
        ((parseDate indi.death.date).isSome ∨ (parseDate indi.birth.date).isSome)) := by
  simp only [deriveEvents, h, if_false, reduceIte]
  rw [jsOrStr_parseDates]
  cases hb : parseDate indi.birth.date <;>
    cases hd : parseDate indi.death.date <;>
      cases hbp : placeOk indi.birth.place <;>
        cases hdp : placeOk indi.death.place <;>
          cases hbu : placeOk indi.burialPlace <;>
            simp_all

/-- Every burial event carries category "death" and the death-date-else-
birth-date ISO date. -/
theorem deriveEvents_burial_fields (indi : Indi) :
    ∀ e ∈ deriveEvents indi, e.type = "burial" →
      e.category = "death" ∧
      e.date = (match parseDate indi.death.date with
                | some d => d
                | none => (parseDate indi.birth.date).getD "") ∧
      e.place = indi.burialPlace.getD "" := by
  intro e he
  by_cases h : joinName indi.givn indi.surn = ""
  · rw [deriveEvents_noname indi h] at he
    cases he
  · intro hty
    simp only [deriveEvents, h, if_false, reduceIte] at he
    rw [jsOrStr_parseDates] at he
    cases hb : parseDate indi.birth.date <;>
      cases hd : parseDate indi.death.date <;>
        cases hbp : placeOk indi.birth.place <;>
          cases hdp : placeOk indi.death.place <;>
            cases hbu : placeOk indi.burialPlace <;>
              simp_all <;>
                (first
                  | (rcases he with he | he | he <;> subst he <;> simp_all)
                  | (rcases he with he | he <;> subst he <;> simp_all))

/-- A birth event is only derived when the birth place passes the
`place && place !== '?'` guard. -/
theorem deriveEvents_birth_place_guard (indi : Indi) :
    ∀ e ∈ deriveEvents indi, e.type = "birth" →
      placeOk indi.birth.place = true := by
  intro e he
  by_cases h : joinName indi.givn indi.surn = ""
  · rw [deriveEvents_noname indi h] at he
    cases he
  · intro hty
    by_contra hbad
    have hiff := (deriveEvents_birth_iff indi h).mp ⟨e, he, hty⟩
    exact hbad hiff.2

/-- C1 (amended): for every parsed individual with at least one name part,
a birth (resp. death) DerivedEvent exists iff the corresponding date
normalizes to a non-null ISO date and the corresponding place is non-null,
non-empty and not "?"; a burial DerivedEvent exists iff the burial place
passes that test and at least one of the death/birth dates normalizes.
Individuals with no name part produce no events at all. -/
theorem c1_amended (indi : Indi)
    (h : joinName indi.givn indi.surn ≠ "") :
    ((∃ e ∈ deriveEvents indi, e.type = "birth") ↔
      ((parseDate indi.birth.date).isSome ∧ placeOk indi.birth.place = true)) ∧
    ((∃ e ∈ deriveEvents indi, e.type = "death") ↔
      ((parseDate indi.death.date).isSome ∧ placeOk indi.death.place = true)) ∧
    ((∃ e ∈ deriveEvents indi, e.type = "burial") ↔
      (placeOk indi.burialPlace = true ∧
        ((parseDate indi.death.date).isSome ∨ (parseDate indi.birth.date).isSome))) :=
  ⟨deriveEvents_birth_iff indi h, deriveEvents_death_iff indi h,
   deriveEvents_burial_iff indi h⟩

theorem c1_amended_witness :
    joinName "John" "Smith" ≠ "" ∧
    (∃ e ∈ deriveEvents
        { givn := "John", surn := "Smith",
          birth := { date := some "1567", place := some "Paris" } },
      e.type = "birth") := by
  refine ⟨by decide, ?_⟩
  exact (c1_amended
    { givn := "John", surn := "Smith",
      birth := { date := some "1567", place := some "Paris" } }
    (by decide)).1.mpr (by decide)

/-- C10 (amended): for every parsed individual with at least one name part,
a burial DerivedEvent exists iff the burial place is non-null, non-empty
and not "?" and at least one of the death/birth dates normalizes; its ISO
date is the normalized death date when available, else the normalized birth
date, and it carries category "death". -/
theorem c10_amended (indi : Indi)
    (h : joinName indi.givn indi.surn ≠ "") :
    ((∃ e ∈ deriveEvents indi, e.type = "burial") ↔
      (placeOk indi.burialPlace = true ∧
        ((parseDate indi.death.date).isSome ∨ (parseDate indi.birth.date).isSome))) ∧
    (∀ e ∈ deriveEvents indi, e.type = "burial" →
      e.category = "death" ∧
      e.date = (match parseDate indi.death.date with
                | some d => d
                | none => (parseDate indi.birth.date).getD "") ∧
      e.place = indi.burialPlace.getD "") :=
  ⟨deriveEvents_burial_iff indi h, deriveEvents_burial_fields indi⟩

theorem c10_amended_witness :
    joinName "Mary" "Jones" ≠ "" ∧
    (∃ e ∈ deriveEvents
        { givn := "Mary", surn := "Jones",
          death := { date := some "1900", place := none },
          burialPlace := some "Old Cemetery" },
      e.type = "burial") := by
  refine ⟨by decide, ?_⟩
  exact (c10_amended
    { givn := "Mary", surn := "Jones",
      death := { date := some "1900", place := none },
      burialPlace := some "Old Cemetery" }
    (by decide)).1.mpr (by decide)

/-- C5: the date normalizer satisfies the spec's example table — the five
patterns are tried in the stated order with first match winning (the
cascade of `datePatterns`), and every successful result is a fully
zero-padded 10-character `YYYY-MM-DD` string. -/
theorem c5_date_examples :
    parseDate (some "12 Oct 1982") = some "1982-10-12" ∧
    parseDate (some "01-Feb-1837") = some "1837-02-01" ∧
    parseDate (some "May 12, 1805") = some "1805-05-12" ∧
    parseDate (some "Jan 1900") = some "1900-01-01" ∧
    parseDate (some "1567") = some "1567-01-01" ∧
    parseDate (some "Abt. 1756") = some "1756-01-01" ∧
    parseDate (some "Unknown") = none ∧
    parseDate (some "BET 1700 AND 1710") = none ∧
    (∀ (o : Option String) (r : String), parseDate o = some r → r.length = 10) :=
  ⟨rfl, rfl, rfl, rfl, rfl, rfl, rfl, rfl, parseDate_len⟩

theorem c5_date_examples_witness :
    parseDate (some "12 Oct 1982") = some "1982-10-12" ∧
    ("1982-10-12" : String).length = 10 :=
  ⟨c5_date_examples.1,
   c5_date_examples.2.2.2.2.2.2.2.2 (some "12 Oct 1982") "1982-10-12"
     c5_date_examples.1⟩

/-- C7 (amended): a place the normalizer maps to null (in particular the
literal "?") resolves immediately to null with no outbound lookup and no
cache change; a birth place of "?" blocks the birth event at derivation, so
such an event is neither imported nor skipped; and an import deriving zero
events returns imported = 0, skipped = 0, persists nothing, and never
invokes the geocoding service. -/
theorem c7_amended :
    (∀ (oracle : String → Option Coord) (st : GeoCache) (place : String),
      cleanPlaceName place = none → geocode oracle st place = (none, st, 0)) ∧
    cleanPlaceName "?" = none ∧
    (∀ indi : Indi, indi.birth.place = some "?" →
      ∀ e ∈ deriveEvents indi, e.type ≠ "birth") ∧
    (∀ (oracle : String → Option Coord) (st : GeoCache) (content : String),
      (parseGedcomFull content).events = [] →
      (importGedcom oracle st content).1.imported = 0 ∧
      (importGedcom oracle st content).1.skipped = 0 ∧
      (importGedcom oracle st content).2.1 = [] ∧
      (importGedcom oracle st content).2.2.2 = 0) := by
  refine ⟨?_, rfl, ?_, ?_⟩
  · intro oracle st place h
    simp [geocode, h]
  · intro indi h e he hty
    have hguard := deriveEvents_birth_place_guard indi e he hty
    rw [h] at hguard
    simp [placeOk] at hguard
  · intro oracle st content h
    have hlen : (parseGedcomFull content).events.length = 0 := by
      rw [h]; rfl
    simp [importGedcom, hlen]

theorem c7_amended_witness :
    geocode noOracle [] "?" = (none, [], 0) ∧
    (∀ e ∈ deriveEvents
        { givn := "John", surn := "Smith",
          birth := { date := some "1900", place := some "?" } },
      e.type ≠ "birth") ∧
    (importGedcom noOracle [] c7Content).1.imported = 0 ∧
    (importGedcom noOracle [] c7Content).2.2.2 = 0 := by
  refine ⟨?_, ?_, ?_, ?_⟩
  · exact c7_amended.1 noOracle [] "?" (by decide)
  · exact c7_amended.2.2.1
      { givn := "John", surn := "Smith",
        birth := { date := some "1900", place := some "?" } } rfl
  · exact (c7_amended.2.2.2 noOracle [] c7Content (by decide)).1
  · exact (c7_amended.2.2.2 noOracle [] c7Content (by decide)).2.2.2

/-! ### C4 — the import persistence loop -/

theorem addToSet_mem (s : List String) (y x : String) :
    x ∈ addToSet s y ↔ (x ∈ s ∨ x = y) := by
  unfold addToSet
  by_cases h : y ∈ s
  · simp only [if_pos h]
    constructor
    · exact Or.inl
    · rintro (hx | rfl)
      · exact hx
      · exact h
  · simp [if_neg h, List.mem_append]

theorem filterLenAdd (p : GEvent → Bool) (l : List GEvent) :
    (l.filter p).length + (l.filter (fun e => !p e)).length = l.length := by
  induction l with
  | nil => rfl
  | cons a t ih =>
    by_cases h : p a <;> simp [h, List.filter_cons] <;> omega

theorem importFold_spec (geocoded : List (String × Coord)) :
    ∀ (events : List GEvent) (acc : ImpAcc),
      (events.foldl (importStep geocoded) acc).1 =
        acc.1 + (events.filter (fun e => resolvedB geocoded e)).length ∧
      (events.foldl (importStep geocoded) acc).2.1 =
        acc.2.1 + (events.filter (fun e => !resolvedB geocoded e)).length ∧
      (events.foldl (importStep geocoded) acc).2.2.2 =
        acc.2.2.2 ++ (events.filter (fun e => resolvedB geocoded e)).map (rowOf geocoded) ∧
      (∀ x, x ∈ (events.foldl (importStep geocoded) acc).2.2.1 ↔
        (x ∈ acc.2.2.1 ∨ ∃ e ∈ events, resolvedB geocoded e = true ∧ e.name = x)) := by
  intro events
  induction events with
  | nil => intro acc; simp
  | cons evt rest ih =>
    intro acc
    rw [List.foldl_cons]
    obtain ⟨ih1, ih2, ih3, ih4⟩ := ih (importStep geocoded acc evt)
    cases hc : findCoord evt.place geocoded with
    | none =>
      have hres : resolvedB geocoded evt = false := by
        simp [resolvedB, hc]
      have hstep : importStep geocoded acc evt =
          (acc.1, acc.2.1 + 1, acc.2.2.1, acc.2.2.2) := by
        simp [importStep, hc]
      refine ⟨?_, ?_, ?_, ?_⟩
      · rw [ih1, hstep]
        simp [hres]
      · rw [ih2, hstep]
        simp [hres]
        omega
      · rw [ih3, hstep]
        simp [hres]
      · intro x
        rw [ih4, hstep]
        simp [hres]
    | some coords =>
      have hres : resolvedB geocoded evt = true := by
        simp [resolvedB, hc]
      have hrow : rowOf geocoded evt =
          { title := evt.title
            description := if evt.description = "" then none else some evt.description
            eventDate := evt.date
            lat := coords.lat
            lon := coords.lon
            category := if evt.category = "" then "other" else evt.category
            source := "gedcom" } := by
        simp [rowOf, hc]
      have hstep : importStep geocoded acc evt =
          (acc.1 + 1, acc.2.1, addToSet acc.2.2.1 evt.name,
           acc.2.2.2 ++ [rowOf geocoded evt]) := by
        simp [importStep, hc, hrow]
      refine ⟨?_, ?_, ?_, ?_⟩
      · rw [ih1, hstep]
        simp [hres]
        omega
      · rw [ih2, hstep]
        simp [hres]
      · rw [ih3, hstep]
        simp [hres]
      · intro x
        rw [ih4, hstep]
        rw [addToSet_mem]
        constructor
        · rintro ((hx | rfl) | hx)
          · exact Or.inl hx
          · exact Or.inr ⟨evt, List.mem_cons_self _ _, hres, rfl⟩
          · rcases hx with ⟨e, hin, hr, hn⟩
            exact Or.inr ⟨e, List.mem_cons_of_mem _ hin, hr, hn⟩
        · rintro (hx | ⟨e, hin, hr, hn⟩)
          · exact Or.inl (Or.inl hx)
          · rcases List.mem_cons.mp hin with rfl | hin'
            · exact Or.inl (Or.inr hn.symm)
            · exact Or.inr ⟨e, hin', hr, hn⟩

theorem sortStrs_mem (l : List String) (x : String) :
    x ∈ sortStrs l ↔ x ∈ l :=
  (List.perm_insertionSort (· ≤ ·) l).mem_iff

/-- C4 (amended): for every import, each DerivedEvent is persisted iff its
place resolved in the batch geocoding result; `imported` counts exactly the
persisted events, `skipped` the rest, so imported + skipped equals the
number of DerivedEvents; when at least one DerivedEvent exists the returned
people list contains exactly the distinct names of people contributing a
persisted event; and when zero DerivedEvents are derived the result has
imported = 0 and skipped = 0 with the distinct informational message, the
names of all stored people, no persisted rows, and zero outbound lookups. -/
theorem c4_amended (oracle : String → Option Coord) (st : GeoCache)
    (content : String) :
    (importGedcom oracle st content).1.imported +
        (importGedcom oracle st content).1.skipped =
      (parseGedcomFull content).events.length ∧
    (importGedcom oracle st content).1.imported =
      ((parseGedcomFull content).events.filter (fun e =>
        resolvedB (geocodeAll oracle st
          ((parseGedcomFull content).events.map (·.place))).1 e)).length ∧
    (importGedcom oracle st content).2.1 =
      ((parseGedcomFull content).events.filter (fun e =>
        resolvedB (geocodeAll oracle st
          ((parseGedcomFull content).events.map (·.place))).1 e)).map
        (rowOf (geocodeAll oracle st
          ((parseGedcomFull content).events.map (·.place))).1) ∧
    ((parseGedcomFull content).events ≠ [] →
      ∀ x, x ∈ (importGedcom oracle st content).1.people ↔
        ∃ e ∈ (parseGedcomFull content).events,
          resolvedB (geocodeAll oracle st
            ((parseGedcomFull content).events.map (·.place))).1 e = true ∧
          e.name = x) ∧
    ((parseGedcomFull content).events = [] →
      (importGedcom oracle st content).1.imported = 0 ∧
      (importGedcom oracle st content).1.skipped = 0 ∧
      (importGedcom oracle st content).2.1 = [] ∧
      (importGedcom oracle st content).2.2.2 = 0 ∧
      (importGedcom oracle st content).1.people =
        sortStrs ((parseGedcomFull content).people.map (·.name)) ∧
      (importGedcom oracle st content).1.message =
        "No geocodable events found. Stored " ++
          toString (parseGedcomFull content).people.length ++ " people and " ++
          toString (parseGedcomFull content).families.length ++
          " family links.") := by
  by_cases hz : (parseGedcomFull content).events.length = 0
  · have hnil : (parseGedcomFull content).events = [] :=
      List.length_eq_zero.mp hz
    refine ⟨?_, ?_, ?_, ?_, ?_⟩ <;>
      simp [importGedcom, hz, hnil]
  · obtain ⟨h1, h2, h3, h4⟩ :=
      importFold_spec
        (geocodeAll oracle st ((parseGedcomFull content).events.map (·.place))).1
        (parseGedcomFull content).events (0, 0, [], [])
    have himp : importGedcom oracle st content =
        (let parsed := parseGedcomFull content
         let geo := geocodeAll oracle st (parsed.events.map (·.place))
         let acc := importLoop geo.1 parsed.events
         ({ imported := acc.1, skipped := acc.2.1
            people := sortStrs acc.2.2.1
            peopleCount := parsed.people.length
            familiesCount := parsed.families.length
            message := "Successfully imported " ++ toString acc.1 ++
              " events for " ++ toString acc.2.2.1.length ++
              " people. Stored " ++ toString parsed.people.length ++
              " people and " ++ toString parsed.families.length ++
              " family links." },
          acc.2.2.2, geo.2.1, geo.2.2)) := by
      simp [importGedcom, hz]
    refine ⟨?_, ?_, ?_, ?_, ?_⟩
    · rw [himp]
      simp only [importLoop]
      rw [h1, h2]
      have hsplit := filterLenAdd (fun e =>
        resolvedB (geocodeAll oracle st
          ((parseGedcomFull content).events.map (·.place))).1 e)
        (parseGedcomFull content).events
      simp only [Nat.zero_add]
      omega
    · rw [himp]
      simp only [importLoop]
      rw [h1]
      simp
    · rw [himp]
      simp only [importLoop]
      rw [h3]
      simp
    · intro _ x
      rw [himp]
      simp only [importLoop]
      rw [sortStrs_mem]
      rw [h4 x]
      simp
    · intro hnil
      exact absurd (by rw [hnil]; rfl) hz

theorem c4_amended_witness :
    (parseGedcomFull c4ContentOne).events ≠ [] ∧
    (importGedcom c4Oracle [] c4ContentOne).1.imported +
        (importGedcom c4Oracle [] c4ContentOne).1.skipped =
      (parseGedcomFull c4ContentOne).events.length ∧
    ("John Smith" ∈ (importGedcom c4Oracle [] c4ContentOne).1.people) := by
  refine ⟨by decide, (c4_amended c4Oracle [] c4ContentOne).1, ?_⟩
  exact ((c4_amended c4Oracle [] c4ContentOne).2.2.2.1 (by decide)
    "John Smith").mpr (by decide)

/-! ### C2/C3 — association-map lemmas for the tree builders -/

def keysOf (m : GMap) : List String := m.map (·.1)

theorem mget_mupd_self (k : String) (f : GNode → GNode) (m : GMap) :
    mget k (mupd k f m) = (mget k m).map f := by
  induction m with
  | nil => simp [mupd, mget]
  | cons kv t ih =>
    by_cases h : kv.1 = k
    · simp [mupd, mget, h]
    · simp [mupd, mget, h, ih]

theorem mget_mupd_ne (k k' : String) (f : GNode → GNode) (m : GMap)
    (h : k' ≠ k) : mget k' (mupd k f m) = mget k' m := by
  induction m with
  | nil => simp [mupd, mget]
  | cons kv t ih =>
    by_cases hk : kv.1 = k
    · simp [mupd, mget, hk, Ne.symm h]
    · by_cases hk' : kv.1 = k'
      · simp [mupd, mget, hk, hk', h]
      · simp [mupd, mget, hk, hk', ih]

theorem keysOf_mupd (k : String) (f : GNode → GNode) (m : GMap) :
    keysOf (mupd k f m) = keysOf m := by
  induction m with
  | nil => simp [mupd, keysOf]
  | cons kv t ih =>
    by_cases h : kv.1 = k
    · simp [mupd, keysOf, h]
    · simp only [mupd, keysOf, if_neg h, List.map_cons]
      simpa [keysOf] using ih

theorem mget_isSome_iff_mem (k : String) (m : GMap) :
    (mget k m).isSome = true ↔ k ∈ keysOf m := by
  induction m with
  | nil => simp [mget, keysOf]
  | cons kv t ih =>
    by_cases h : kv.1 = k
    · simp [mget, keysOf, h]
    · simp [mget, keysOf, h, ih, Ne.symm h]

theorem mget_none_iff_not_mem (k : String) (m : GMap) :
    mget k m = none ↔ ¬ k ∈ keysOf m := by
  rw [← mget_isSome_iff_mem]
  cases mget k m <;> simp

theorem mget_of_mem_nodup (m : GMap) (kv : String × GNode)
    (hmem : kv ∈ m) (hnd : (keysOf m).Nodup) : mget kv.1 m = some kv.2 := by
  induction m with
  | nil => cases hmem
  | cons hd t ih =>
    rcases List.mem_cons.mp hmem with rfl | hmem'
    · simp [mget]
    · have hcons : keysOf (hd :: t) = hd.1 :: keysOf t := rfl
      rw [hcons] at hnd
      have hnd1 : hd.1 ∉ keysOf t := (List.nodup_cons.mp hnd).1
      have hnd' : (keysOf t).Nodup := (List.nodup_cons.mp hnd).2
      have hne : hd.1 ≠ kv.1 := by
        intro he
        apply hnd1
        rw [he]
        exact List.mem_map.mpr ⟨kv, hmem', rfl⟩
      simp [mget, hne, ih hmem' hnd']

theorem mset_fresh (k : String) (v : GNode) (m : GMap)
    (h : mget k m = none) : mset k v m = m ++ [(k, v)] := by
  induction m with
  | nil => simp [mset]
  | cons kv t ih =>
    by_cases hk : kv.1 = k
    · rw [mget] at h
      rw [if_pos hk] at h
      cases h
    · rw [mget] at h
      rw [if_neg hk] at h
      simp [mset, hk, ih h]

theorem mget_append_right (k : String) (m m' : GMap)
    (h : mget k m = none) : mget k (m ++ m') = mget k m' := by
  induction m with
  | nil => simp
  | cons kv t ih =>
    by_cases hk : kv.1 = k
    · rw [mget, if_pos hk] at h
      cases h
    · rw [mget, if_neg hk] at h
      simp only [List.cons_append, mget, if_neg hk]
      exact ih h

theorem mget_append_left (k : String) (m m' : GMap) (v : GNode)
    (h : mget k m = some v) : mget k (m ++ m') = some v := by
  induction m with
  | nil => cases h
  | cons kv t ih =>
    by_cases hk : kv.1 = k
    · rw [mget, if_pos hk] at h
      simp only [List.cons_append, mget, if_pos hk]
      exact h
    · rw [mget, if_neg hk] at h
      simp only [List.cons_append, mget, if_neg hk]
      exact ih h

/-- With pairwise-fresh distinct ids, the JS object build is plain
association-list extension. -/
theorem gInitMap_fold_form :
    ∀ (ps : List GPerson) (m : GMap),
      (∀ p ∈ ps, mget p.gedcom_id m = none) →
      (ps.map (·.gedcom_id)).Nodup →
      ps.foldl (fun m p => mset p.gedcom_id (gInitNode p) m) m =
        m ++ ps.map (fun p => (p.gedcom_id, gInitNode p)) := by
  intro ps
  induction ps with
  | nil => intro m _ _; simp
  | cons p rest ih =>
    intro m hfresh hnd
    rw [List.foldl_cons]
    rw [mset_fresh _ _ _ (hfresh p (List.mem_cons_self _ _))]
    have hnd' : (rest.map (·.gedcom_id)).Nodup := by
      simp at hnd
      exact hnd.2
    have hfresh' : ∀ q ∈ rest, mget q.gedcom_id (m ++ [(p.gedcom_id, gInitNode p)]) = none := by
      intro q hq
      have h1 : mget q.gedcom_id m = none := hfresh q (List.mem_cons_of_mem _ hq)
      rw [mget_append_right _ _ _ h1]
      have hne : p.gedcom_id ≠ q.gedcom_id := by
        have h2 : ∀ x ∈ rest, ¬ x.gedcom_id = p.gedcom_id := by
          have h3 := hnd
          simp at h3
          exact h3.1
        intro he
        exact h2 q hq he.symm
      simp [mget, hne]
    rw [ih _ hfresh' hnd']
    simp

theorem gInitMap_form (people : List GPerson)
    (hnd : (people.map (·.gedcom_id)).Nodup) :
    gInitMap people = people.map (fun p => (p.gedcom_id, gInitNode p)) := by
  have := gInitMap_fold_form people [] (by intro p _; rfl) hnd
  simpa [gInitMap] using this

theorem keysOf_gInitMap (people : List GPerson)
    (hnd : (people.map (·.gedcom_id)).Nodup) :
    keysOf (gInitMap people) = people.map (·.gedcom_id) := by
  rw [gInitMap_form people hnd]
  simp [keysOf]

/-- An attribute-only update of one key preserves every entry's name,
children and parent flag. -/
theorem mupd_attrs_fields (k : String) (g : GNode → List (String × String))
    (m : GMap) (k' : String) (nd : GNode) (h : mget k' m = some nd) :
    ∃ at', mget k' (mupd k (fun x => { x with attrs := g x }) m) =
      some ⟨nd.name, at', nd.childIds, nd.hasParent⟩ := by
  by_cases hk : k' = k
  · subst hk
    rw [mget_mupd_self, h]
    exact ⟨g nd, rfl⟩
  · rw [mget_mupd_ne _ _ _ _ hk, h]
    exact ⟨nd.attrs, by cases nd; rfl⟩

theorem mupd_attrs_fields2 (k1 k2 : String)
    (g1 g2 : GNode → List (String × String)) (m : GMap) (k' : String)
    (nd : GNode) (h : mget k' m = some nd) :
    ∃ at', mget k' (mupd k2 (fun x => { x with attrs := g2 x })
        (mupd k1 (fun x => { x with attrs := g1 x }) m)) =
      some ⟨nd.name, at', nd.childIds, nd.hasParent⟩ := by
  obtain ⟨a1, h1⟩ := mupd_attrs_fields k1 g1 m k' nd h
  exact mupd_attrs_fields k2 g2 _ k'
    ⟨nd.name, a1, nd.childIds, nd.hasParent⟩ h1

theorem keysOf_gSpousePart (m : GMap) (f : GFamIn) :
    keysOf (gSpousePart m f) = keysOf m := by
  unfold gSpousePart
  try simp only []
  repeat' split
  all_goals first
    | rfl
    | simp only [keysOf_mupd]

theorem gSpousePart_fields (m : GMap) (f : GFamIn) (k' : String)
    (nd : GNode) (h : mget k' m = some nd) :
    ∃ at', mget k' (gSpousePart m f) =
      some ⟨nd.name, at', nd.childIds, nd.hasParent⟩ := by
  unfold gSpousePart
  try simp only []
  repeat' split
  all_goals first
    | exact ⟨nd.attrs, by rw [h]⟩
    | exact ⟨nd.attrs, by rw [h]; cases nd; rfl⟩
    | exact mupd_attrs_fields2 _ _ _ _ _ _ _ h
    | exact mupd_attrs_fields _ _ _ _ _ h

theorem keysOf_gAttachFold (pid : String) :
    ∀ (cs : List String) (mm : GMap),
      keysOf (gAttachFold pid cs mm) = keysOf mm := by
  intro cs
  induction cs with
  | nil => intro mm; rfl
  | cons c rest ih =>
    intro mm
    unfold gAttachFold
    rw [List.foldl_cons]
    cases hc : mget c mm with
    | none =>
      simp only [hc]
      exact ih mm
    | some _ =>
      simp only [hc]
      have := ih (mupd c (fun nd => { nd with hasParent := true })
        (mupd pid (fun nd => { nd with childIds := nd.childIds ++ [c] }) mm))
      unfold gAttachFold at this
      rw [this, keysOf_mupd, keysOf_mupd]

theorem gAttachFold_fields (pid : String) :
    ∀ (cs : List String) (mm : GMap) (k' : String) (nd : GNode),
      mget k' mm = some nd →
      mget k' (gAttachFold pid cs mm) =
        some ⟨nd.name, nd.attrs,
          nd.childIds ++ (if pid = k' then cs.filter (fun c => c ∈ keysOf mm) else []),
          nd.hasParent || decide (k' ∈ cs)⟩ := by
  intro cs
  induction cs with
  | nil =>
    intro mm k' nd h
    simp only [gAttachFold, List.foldl_nil, List.filter_nil]
    rw [h]
    cases nd
    simp
  | cons c rest ih =>
    intro mm k' nd h
    unfold gAttachFold
    rw [List.foldl_cons]
    cases hc : mget c mm with
    | none =>
      have hcnot : ¬ c ∈ keysOf mm := (mget_none_iff_not_mem c mm).mp hc
      have hck : c ≠ k' := by
        intro he
        rw [he, h] at hc
        cases hc
      have := ih mm k' nd h
      unfold gAttachFold at this
      simp only [hc]
      rw [this]
      have hfilter : (c :: rest).filter (fun x => decide (x ∈ keysOf mm)) =
          rest.filter (fun x => decide (x ∈ keysOf mm)) := by
        simp [List.filter_cons, hcnot]
      have hmem : (k' ∈ c :: rest) = (k' ∈ rest) := by
        simp [List.mem_cons, Ne.symm hck]
      simp only [hfilter, hmem]
    | some cn =>
      have hcmem : c ∈ keysOf mm := by
        rw [← mget_isSome_iff_mem, hc]
        rfl
      simp only [hc]
      set mm2 := mupd c (fun nd => { nd with hasParent := true })
        (mupd pid (fun nd => { nd with childIds := nd.childIds ++ [c] }) mm) with hmm2
      have hkeys2 : keysOf mm2 = keysOf mm := by
        rw [hmm2, keysOf_mupd, keysOf_mupd]
      have hstep : mget k' mm2 =
          some ⟨nd.name, nd.attrs,
            nd.childIds ++ (if pid = k' then [c] else []),
            nd.hasParent || decide (k' = c)⟩ := by
        rw [hmm2]
        by_cases hpk : k' = pid
        · subst hpk
          by_cases hck : k' = c
          · subst hck
            rw [mget_mupd_self, mget_mupd_self, h]
            cases nd
            simp
          · rw [mget_mupd_ne _ _ _ _ hck, mget_mupd_self, h]
            cases nd
            simp [hck]
        · by_cases hck : k' = c
          · subst hck
            rw [mget_mupd_self, mget_mupd_ne _ _ _ _ hpk, h]
            cases nd
            simp [Ne.symm hpk]
          · rw [mget_mupd_ne _ _ _ _ hck, mget_mupd_ne _ _ _ _ hpk, h]
            cases nd
            simp [Ne.symm hpk, hck]
      have hrec := ih mm2 k' _ hstep
      unfold gAttachFold at hrec
      rw [hrec, hkeys2]
      congr 2
      · by_cases hpk : pid = k'
        · simp only [if_pos hpk, List.filter_cons]
          simp only [hcmem, decide_eq_true_eq, if_pos, List.append_assoc]
          simp [hcmem]
        · simp [if_neg hpk]
      · by_cases hck : k' = c
        · subst hck
          simp
        · simp [hck, Ne.symm hck]

theorem keysOf_gFamStep (m : GMap) (f : GFamIn) :
    keysOf (gFamStep m f) = keysOf m := by
  unfold gFamStep
  try simp only []
  cases hp : primaryParentId f with
  | none =>
    simp only [hp]
    exact keysOf_gSpousePart m f
  | some pid =>
    simp only [hp]
    cases hm : mget pid (gSpousePart m f) with
    | none =>
      simp only [hm]
      exact keysOf_gSpousePart m f
    | some v =>
      simp only [hm]
      rw [keysOf_gAttachFold, keysOf_gSpousePart]

/-- One FAM record's effect on any entry: the name is unchanged, the
children gain exactly this family's resolvable child listings when the
entry is its resolvable primary parent, and the parent flag is set exactly
when this family lists the entry as a child with a resolvable primary
parent. -/
theorem gFamStep_fields (m : GMap) (f : GFamIn) (k' : String) (nd : GNode)
    (h : mget k' m = some nd) :
    ∃ at', mget k' (gFamStep m f) =
      some ⟨nd.name, at',
        nd.childIds ++ attachListFor (keysOf m) f k',
        nd.hasParent || markedBy (keysOf m) f k'⟩ := by
  obtain ⟨a1, h1⟩ := gSpousePart_fields m f k' nd h
  unfold gFamStep
  try simp only []
  cases hp : primaryParentId f with
  | none =>
    refine ⟨a1, ?_⟩
    simp only [hp, attachListFor, markedBy, primaryOkKeys]
    simpa using h1
  | some pid =>
    simp only [hp]
    cases hm : mget pid (gSpousePart m f) with
    | none =>
      have hnot : ¬ pid ∈ keysOf m := by
        rw [← keysOf_gSpousePart m f]
        exact (mget_none_iff_not_mem _ _).mp hm
      refine ⟨a1, ?_⟩
      simp only [hm, attachListFor, markedBy, primaryOkKeys, hp, hnot]
      simpa using h1
    | some pn =>
      have hmem : pid ∈ keysOf m := by
        rw [← keysOf_gSpousePart m f]
        rw [← mget_isSome_iff_mem, hm]
        rfl
      simp only [hm]
      have hrec := gAttachFold_fields pid f.childIds (gSpousePart m f) k' _ h1
      rw [keysOf_gSpousePart] at hrec
      have hchild : (if pid = k'
            then f.childIds.filter (fun c => c ∈ keysOf m) else []) =
          attachListFor (keysOf m) f k' := by
        simp only [attachListFor, primaryOkKeys, hp, hmem]
        by_cases hpk : pid = k' <;> simp [hpk]
      have hmark : (decide (k' ∈ f.childIds)) = markedBy (keysOf m) f k' := by
        simp only [markedBy, primaryOkKeys, hp]
        simp [hmem]
      refine ⟨a1, ?_⟩
      rw [hrec, hchild, hmark]

/-- Folding all FAM records: children and parent flags accumulate family
by family. -/
theorem gFamsFold_fields :
    ∀ (fs : List GFamIn) (m : GMap) (k' : String) (nd : GNode),
      mget k' m = some nd →
      ∃ at', mget k' (fs.foldl gFamStep m) =
        some ⟨nd.name, at',
          nd.childIds ++ (fs.map (fun f => attachListFor (keysOf m) f k')).flatten,
          nd.hasParent || fs.any (fun f => markedBy (keysOf m) f k')⟩ := by
  intro fs
  induction fs with
  | nil =>
    intro m k' nd h
    refine ⟨nd.attrs, ?_⟩
    simp only [List.foldl_nil, List.map_nil, List.flatten_nil, List.any_nil,
      List.append_nil, Bool.or_false]
    rw [h]
  | cons f rest ih =>
    intro m k' nd h
    rw [List.foldl_cons]
    obtain ⟨a1, h1⟩ := gFamStep_fields m f k' nd h
    obtain ⟨a2, h2⟩ := ih (gFamStep m f) k' _ h1
    rw [keysOf_gFamStep] at h2
    refine ⟨a2, ?_⟩
    rw [h2]
    simp [List.append_assoc, Bool.or_assoc]

theorem keysOf_gFamsFold :
    ∀ (fs : List GFamIn) (m : GMap),
      keysOf (fs.foldl gFamStep m) = keysOf m := by
  intro fs
  induction fs with
  | nil => intro m; rfl
  | cons f rest ih =>
    intro m
    rw [List.foldl_cons, ih, keysOf_gFamStep]

theorem keysOf_gedcomMap (people : List GPerson) (families : List GFamIn)
    (hnd : (people.map (·.gedcom_id)).Nodup) :
    keysOf (gedcomMap people families) = people.map (·.gedcom_id) := by
  unfold gedcomMap
  rw [keysOf_gFamsFold, keysOf_gInitMap people hnd]

/-- Every entry of the processed map: parent flag and accumulated children
in terms of the input families. -/
theorem gedcomMap_entry (people : List GPerson) (families : List GFamIn)
    (hnd : (people.map (·.gedcom_id)).Nodup) :
    ∀ kv ∈ gedcomMap people families,
      kv.2.hasParent = gAttached (people.map (·.gedcom_id)) families kv.1 ∧
      kv.2.childIds =
        (families.map (fun f =>
          attachListFor (people.map (·.gedcom_id)) f kv.1)).flatten := by
  intro kv hmem
  have hknd : (keysOf (gedcomMap people families)).Nodup := by
    rw [keysOf_gedcomMap people families hnd]
    exact hnd
  have hget := mget_of_mem_nodup _ kv hmem hknd
  have hkmem : kv.1 ∈ keysOf (gedcomMap people families) := by
    rw [← mget_isSome_iff_mem, hget]
    rfl
  rw [keysOf_gedcomMap people families hnd] at hkmem
  obtain ⟨p, hp, hpk⟩ := List.mem_map.mp hkmem
  have hinit : mget kv.1 (gInitMap people) = some (gInitNode p) := by
    rw [gInitMap_form people hnd, ← hpk]
    exact mget_of_mem_nodup _ (p.gedcom_id, gInitNode p)
      (List.mem_map.mpr ⟨p, hp, rfl⟩)
      (by rw [show keysOf (people.map (fun p => (p.gedcom_id, gInitNode p))) =
              people.map (·.gedcom_id) by simp [keysOf]]
          exact hnd)
  obtain ⟨at', hfin⟩ := gFamsFold_fields families (gInitMap people) kv.1 _ hinit
  rw [keysOf_gInitMap people hnd] at hfin
  unfold gedcomMap at hget
  rw [hget] at hfin
  have heq := Option.some.inj hfin
  constructor
  · rw [heq]
    simp [gAttached, gInitNode]
  · rw [heq]
    simp [gInitNode]

theorem rootEntries_map_fst (m : GMap) (P : String → Bool)
    (h : ∀ kv ∈ m, kv.2.hasParent = P kv.1) :
    (rootEntries m).map (·.1) = (keysOf m).filter (fun k => !P k) := by
  induction m with
  | nil => rfl
  | cons kv t ih =>
    have hkv := h kv (List.mem_cons_self _ _)
    have ih' := ih (fun q hq => h q (List.mem_cons_of_mem _ hq))
    simp only [rootEntries, keysOf] at ih' ⊢
    simp only [List.filter_cons, List.map_cons, hkv]
    cases hP : P kv.1 <;> simp [ih']

theorem gRootIds_eq (people : List GPerson) (families : List GFamIn)
    (hnd : (people.map (·.gedcom_id)).Nodup) :
    (rootEntries (gedcomMap people families)).map (·.1) =
      gRootIds people families := by
  have h := rootEntries_map_fst (gedcomMap people families)
    (fun k => gAttached (people.map (·.gedcom_id)) families k)
    (fun kv hkv => (gedcomMap_entry people families hnd kv hkv).1)
  rw [h, keysOf_gedcomMap people families hnd]
  rfl

/-- List-level view of the accumulated attachments. -/
theorem map_childIds_eq (m : GMap) (g : String → List String)
    (h : ∀ kv ∈ m, kv.2.childIds = g kv.1) :
    m.map (fun kv => kv.2.childIds) = (keysOf m).map g := by
  induction m with
  | nil => rfl
  | cons kv t ih =>
    have hkv := h kv (List.mem_cons_self _ _)
    have ih' := ih (fun q hq => h q (List.mem_cons_of_mem _ hq))
    simp only [keysOf] at ih' ⊢
    simp only [List.map_cons, hkv, ih']

theorem sum_map_swap (as : List String) (bs : List GFamIn)
    (f : String → GFamIn → Nat) :
    (as.map (fun a => ((bs.map (f a)).sum))).sum =
      (bs.map (fun b => ((as.map (fun a => f a b)).sum))).sum := by
  induction as with
  | nil => simp
  | cons a rest ih =>
    simp only [List.map_cons, List.sum_cons, ih]
    clear ih
    induction bs with
    | nil => simp
    | cons b bt ihb =>
      simp only [List.map_cons, List.sum_cons] at ihb ⊢
      omega

theorem sum_eq_zero_of_all (ks : List String) (g : String → Nat)
    (h : ∀ k ∈ ks, g k = 0) : (ks.map g).sum = 0 := by
  induction ks with
  | nil => rfl
  | cons k t ih =>
    simp only [List.map_cons, List.sum_cons]
    rw [h k (List.mem_cons_self _ _), ih (fun q hq => h q (List.mem_cons_of_mem _ hq))]

theorem sum_if_single (pid : String) (g : String → Nat)
    (hz : ∀ k, k ≠ pid → g k = 0) :
    ∀ (ks : List String), ks.Nodup → pid ∈ ks → (ks.map g).sum = g pid := by
  intro ks
  induction ks with
  | nil => intro _ h; cases h
  | cons k t ih =>
    intro hnd hmem
    simp only [List.map_cons, List.sum_cons]
    by_cases hk : k = pid
    · subst hk
      have hrest : (t.map g).sum = 0 := by
        apply sum_eq_zero_of_all
        intro q hq
        apply hz
        intro he
        subst he
        exact (List.nodup_cons.mp hnd).1 hq
      rw [hrest]
      simp
    · have hmem' : pid ∈ t := by
        rcases List.mem_cons.mp hmem with he | hm
        · exact absurd he.symm hk
        · exact hm
      rw [hz k hk, ih (List.nodup_cons.mp hnd).2 hmem']
      simp

/-- Summing one family's attachments over all keys: only the primary
parent receives children. -/
theorem attach_sum (ks : List String) (hnd : ks.Nodup) (f : GFamIn)
    (c : String) :
    (ks.map (fun k => (attachListFor ks f k).count c)).sum =
      (if primaryOkKeys ks f = true
       then (f.childIds.filter (fun x => x ∈ ks)).count c else 0) := by
  cases hp : primaryParentId f with
  | none =>
    have hok : primaryOkKeys ks f = false := by
      simp [primaryOkKeys, hp]
    rw [hok]
    simp only [Bool.false_eq_true, if_false]
    apply sum_eq_zero_of_all
    intro k _
    simp [attachListFor, hok]
  | some pid =>
    by_cases hmem : pid ∈ ks
    · have hok : primaryOkKeys ks f = true := by
        simp [primaryOkKeys, hp, hmem]
      rw [hok]
      simp only [if_true]
      have hz : ∀ k, k ≠ pid →
          ((attachListFor ks f k).count c) = 0 := by
        intro k hk
        have : attachListFor ks f k = [] := by
          simp only [attachListFor, hp]
          have : ¬ (some pid = some k) := by
            intro he
            cases he
            exact hk rfl
          simp [this]
        rw [this]
        rfl
      rw [sum_if_single pid _ hz ks hnd hmem]
      simp [attachListFor, hp, hok]
    · have hok : primaryOkKeys ks f = false := by
        simp [primaryOkKeys, hp, hmem]
      rw [hok]
      simp only [Bool.false_eq_true, if_false]
      apply sum_eq_zero_of_all
      intro k _
      simp [attachListFor, hok]

theorem families_sum_eq (ks : List String) (hnd : ks.Nodup) (c : String) :
    ∀ (families : List GFamIn),
      (families.map (fun fam =>
        (ks.map (fun k => (attachListFor ks fam k).count c)).sum)).sum =
      (families.map (fun f =>
        if primaryOkKeys ks f then (f.childIds.filter (fun x => x ∈ ks)).count c
        else 0)).sum := by
  intro families
  induction families with
  | nil => rfl
  | cons f rest ih =>
    simp only [List.map_cons, List.sum_cons]
    rw [attach_sum ks hnd f c, ih]

/-- C2 (amended): a Person can contribute to the built tree more than
once — child attachments are NOT deduplicated.  For every input with
distinct person ids, the number of attachment occurrences of a child id `c`
across all children lists equals the number of times `c` is listed (with
multiplicity) by family links whose primary parent resolves, so a child
listed by several family links is attached under each of them, and the
tree's node count can exceed the entity count. -/
theorem c2_amended (people : List GPerson) (families : List GFamIn)
    (c : String) (hnd : (people.map (·.gedcom_id)).Nodup) :
    (allChildIds (gedcomMap people families)).count c =
      listingCount (people.map (·.gedcom_id)) families c := by
  have hmap := map_childIds_eq (gedcomMap people families)
    (fun k => (families.map (fun f =>
      attachListFor (people.map (·.gedcom_id)) f k)).flatten)
    (fun kv hkv => (gedcomMap_entry people families hnd kv hkv).2)
  have h1 : allChildIds (gedcomMap people families) =
      ((people.map (·.gedcom_id)).map (fun k => (families.map (fun f =>
        attachListFor (people.map (·.gedcom_id)) f k)).flatten)).flatten := by
    unfold allChildIds
    rw [hmap, keysOf_gedcomMap people families hnd]
  rw [h1, List.count_flatten, List.map_map]
  have h2 : ((people.map (·.gedcom_id)).map
        (List.count c ∘ fun k => (families.map (fun f =>
          attachListFor (people.map (·.gedcom_id)) f k)).flatten)) =
      ((people.map (·.gedcom_id)).map (fun k => (families.map (fun f =>
        (attachListFor (people.map (·.gedcom_id)) f k).count c)).sum)) := by
    apply List.map_congr_left
    intro k _
    simp only [Function.comp_apply]
    rw [List.count_flatten, List.map_map]
    rfl
  rw [h2]
  rw [sum_map_swap (people.map (·.gedcom_id)) families
    (fun k fam => (attachListFor (people.map (·.gedcom_id)) fam k).count c)]
  unfold listingCount
  exact families_sum_eq (people.map (·.gedcom_id)) hnd c families

theorem c2_amended_witness :
    (c2People.map (·.gedcom_id)).Nodup ∧
    (allChildIds (gedcomMap c2People c2Fams)).count "@C@" = 2 ∧
    listingCount (c2People.map (·.gedcom_id)) c2Fams "@C@" = 2 := by
  refine ⟨by decide, ?_, by decide⟩
  rw [c2_amended c2People c2Fams "@C@" (by decide)]
  decide

/-! ### C3 — family-variant map lemmas (mirroring the gedcom side for
integer keys in ascending enumeration order) -/

theorem fget_fupd_self (k : Nat) (f : FNode → FNode) (m : FMap) :
    fget k (fupd k f m) = (fget k m).map f := by
  induction m with
  | nil => simp [fupd, fget]
  | cons kv t ih =>
    by_cases h : kv.1 = k
    · simp [fupd, fget, h]
    · simp [fupd, fget, h, ih]

theorem fget_fupd_ne (k k' : Nat) (f : FNode → FNode) (m : FMap)
    (h : k' ≠ k) : fget k' (fupd k f m) = fget k' m := by
  induction m with
  | nil => simp [fupd, fget]
  | cons kv t ih =>
    by_cases hk : kv.1 = k
    · simp [fupd, fget, hk, Ne.symm h]
    · by_cases hk' : kv.1 = k'
      · simp [fupd, fget, hk, hk', h]
      · simp [fupd, fget, hk, hk', ih]

theorem keysOfF_fupd (k : Nat) (f : FNode → FNode) (m : FMap) :
    keysOfF (fupd k f m) = keysOfF m := by
  induction m with
  | nil => simp [fupd, keysOfF]
  | cons kv t ih =>
    by_cases h : kv.1 = k
    · simp [fupd, keysOfF, h]
    · simp only [fupd, keysOfF, if_neg h, List.map_cons]
      simpa [keysOfF] using ih

theorem fget_isSome_iff_mem (k : Nat) (m : FMap) :
    (fget k m).isSome = true ↔ k ∈ keysOfF m := by
  induction m with
  | nil => simp [fget, keysOfF]
  | cons kv t ih =>
    by_cases h : kv.1 = k
    · simp [fget, keysOfF, h]
    · simp [fget, keysOfF, h, ih, Ne.symm h]

theorem fget_none_iff_not_mem (k : Nat) (m : FMap) :
    fget k m = none ↔ ¬ k ∈ keysOfF m := by
  rw [← fget_isSome_iff_mem]
  cases fget k m <;> simp

theorem fget_of_mem_nodup (m : FMap) (kv : Nat × FNode)
    (hmem : kv ∈ m) (hnd : (keysOfF m).Nodup) : fget kv.1 m = some kv.2 := by
  induction m with
  | nil => cases hmem
  | cons hd t ih =>
    rcases List.mem_cons.mp hmem with rfl | hmem'
    · simp [fget]
    · have hcons : keysOfF (hd :: t) = hd.1 :: keysOfF t := rfl
      rw [hcons] at hnd
      have hnd1 : hd.1 ∉ keysOfF t := (List.nodup_cons.mp hnd).1
      have hnd' : (keysOfF t).Nodup := (List.nodup_cons.mp hnd).2
      have hne : hd.1 ≠ kv.1 := by
        intro he
        apply hnd1
        rw [he]
        exact List.mem_map.mpr ⟨kv, hmem', rfl⟩
      simp [fget, hne, ih hmem' hnd']

theorem fget_finsert_self (k : Nat) (v : FNode) (m : FMap) :
    fget k (finsert k v m) = some v := by
  induction m with
  | nil => simp [finsert, fget]
  | cons kv t ih =>
    by_cases hlt : k < kv.1
    · simp [finsert, fget, hlt]
    · by_cases heq : k = kv.1
      · simp [finsert, fget, hlt, heq]
      · have hne : kv.1 ≠ k := Ne.symm heq
        simp [finsert, fget, hlt, heq, hne, ih]

theorem fget_finsert_ne (k k' : Nat) (v : FNode) (m : FMap)
    (h : k' ≠ k) : fget k' (finsert k v m) = fget k' m := by
  induction m with
  | nil => simp [finsert, fget, Ne.symm h]
  | cons kv t ih =>
    by_cases hlt : k < kv.1
    · simp [finsert, fget, hlt, Ne.symm h]
    · by_cases heq : k = kv.1
      · subst heq
        simp [finsert, fget, hlt, Ne.symm h]
      · simp only [finsert, if_neg hlt, if_neg heq]
        by_cases hk' : kv.1 = k'
        · simp [fget, hk']
        · simp [fget, hk', ih]

theorem keysOfF_finsert (k : Nat) (v : FNode) (m : FMap) :
    keysOfF (finsert k v m) = insertKeyNat k (keysOfF m) := by
  induction m with
  | nil => rfl
  | cons kv t ih =>
    by_cases hlt : k < kv.1
    · simp [finsert, insertKeyNat, keysOfF, hlt]
    · by_cases heq : k = kv.1
      · simp [finsert, insertKeyNat, keysOfF, hlt, heq]
      · simp only [finsert, insertKeyNat, if_neg hlt, if_neg heq,
          keysOfF, List.map_cons]
        simpa [keysOfF] using ih

theorem keysOfF_initFold :
    ∀ (ms : List Member) (m : FMap),
      keysOfF (ms.foldl (fun m mb => finsert mb.id (fInitNode mb) m) m) =
        ms.foldl (fun acc mb => insertKeyNat mb.id acc) (keysOfF m) := by
  intro ms
  induction ms with
  | nil => intro m; rfl
  | cons mb rest ih =>
    intro m
    rw [List.foldl_cons, List.foldl_cons, ih, keysOfF_finsert]

theorem keysOfF_fInitMap (members : List Member) :
    keysOfF (fInitMap members) = sortNat (members.map (·.id)) := by
  unfold fInitMap sortNat
  rw [keysOfF_initFold]
  rw [List.foldl_map]
  rfl

theorem mem_insertKeyNat (k k' : Nat) :
    ∀ (l : List Nat), (k' ∈ insertKeyNat k l ↔ k' = k ∨ k' ∈ l) := by
  intro l
  induction l with
  | nil => simp [insertKeyNat]
  | cons a t ih =>
    by_cases hlt : k < a
    · simp [insertKeyNat, hlt]
    · by_cases heq : k = a
      · subst heq
        simp [insertKeyNat, hlt]
      · simp only [insertKeyNat, if_neg hlt, if_neg heq, List.mem_cons, ih]
        constructor
        · rintro (rfl | h | h)
          · exact Or.inr (Or.inl rfl)
          · exact Or.inl h
          · exact Or.inr (Or.inr h)
        · rintro (rfl | rfl | h)
          · exact Or.inr (Or.inl rfl)
          · exact Or.inl rfl
          · exact Or.inr (Or.inr h)

theorem mem_sortNat (k : Nat) (l : List Nat) :
    k ∈ sortNat l ↔ k ∈ l := by
  unfold sortNat
  suffices h : ∀ (l : List Nat) (acc : List Nat),
      (k ∈ l.foldl (fun acc x => insertKeyNat x acc) acc ↔ k ∈ l ∨ k ∈ acc) by
    rw [h l []]
    simp
  intro l
  induction l with
  | nil => intro acc; simp
  | cons a t ih =>
    intro acc
    rw [List.foldl_cons, ih, mem_insertKeyNat]
    constructor
    · rintro (h | rfl | h)
      · exact Or.inl (List.mem_cons_of_mem _ h)
      · exact Or.inl (List.mem_cons_self _ _)
      · exact Or.inr h
    · rintro (h | h)
      · rcases List.mem_cons.mp h with rfl | h'
        · exact Or.inr (Or.inl rfl)
        · exact Or.inl h'
      · exact Or.inr (Or.inr h)

theorem fget_fold_untouched :
    ∀ (ms : List Member) (m : FMap) (k : Nat),
      (∀ mb ∈ ms, mb.id ≠ k) →
      fget k (ms.foldl (fun m mb => finsert mb.id (fInitNode mb) m) m) =
        fget k m := by
  intro ms
  induction ms with
  | nil => intro m k _; rfl
  | cons mb rest ih =>
    intro m k hne
    rw [List.foldl_cons]
    rw [ih _ k (fun q hq => hne q (List.mem_cons_of_mem _ hq))]
    exact fget_finsert_ne _ _ _ _
      (fun he => hne mb (List.mem_cons_self _ _) he.symm)

theorem fInitMap_entry :
    ∀ (members : List Member), (members.map (·.id)).Nodup →
      ∀ mb ∈ members, fget mb.id (fInitMap members) = some (fInitNode mb) := by
  have haux : ∀ (ms : List Member) (m : FMap), (ms.map (·.id)).Nodup →
      ∀ mb ∈ ms,
        fget mb.id (ms.foldl (fun m mb => finsert mb.id (fInitNode mb) m) m) =
          some (fInitNode mb) := by
    intro ms
    induction ms with
    | nil => intro m _ mb h; cases h
    | cons mb0 rest ih =>
      intro m hnd mb hmem
      rw [List.foldl_cons]
      rcases List.mem_cons.mp hmem with rfl | hmem'
      · have hne : ∀ q ∈ rest, q.id ≠ mb.id := by
          intro q hq he
          have h2 : ∀ x ∈ rest, ¬ x.id = mb.id := by
            have h3 := hnd
            simp at h3
            exact h3.1
          exact h2 q hq he
        rw [fget_fold_untouched rest _ mb.id hne]
        exact fget_finsert_self _ _ _
      · have hnd' : (rest.map (·.id)).Nodup := by
          have h3 := hnd
          simp at h3
          exact h3.2
        exact ih _ hnd' mb hmem'
  intro members hnd mb hmem
  exact haux members [] hnd mb hmem

theorem fMarkedBy_congr (ks ks' : List Nat) (r : Rel) (k : Nat)
    (h : ∀ x, x ∈ ks ↔ x ∈ ks') : fMarkedBy ks r k = fMarkedBy ks' r k := by
  unfold fMarkedBy
  rw [decide_eq_decide.mpr (h r.user_id),
    decide_eq_decide.mpr (h r.related_user_id)]

theorem fupd_attrs_fields (k : Nat) (g : FNode → List (String × String))
    (m : FMap) (k' : Nat) (nd : FNode) (h : fget k' m = some nd) :
    ∃ a1, fget k' (fupd k (fun x => { x with attrs := g x }) m) =
      some ⟨nd.name, a1, nd.childIds, nd.hasParent⟩ := by
  by_cases hk : k' = k
  · subst hk
    rw [fget_fupd_self, h]
    exact ⟨g nd, rfl⟩
  · rw [fget_fupd_ne _ _ _ _ hk, h]
    exact ⟨nd.attrs, by cases nd; rfl⟩

theorem keysOfF_fRelStep (m : FMap) (r : Rel) :
    keysOfF (fRelStep m r) = keysOfF m := by
  unfold fRelStep
  try simp only []
  repeat' split
  all_goals first
    | rfl
    | simp only [keysOfF_fupd]

/-- The combined effect of one `parent` edge on an entry: `user_id` gains
the child, `related_user_id` gains the parent flag. -/
theorem fparent_upd_fields (m : FMap) (u v k' : Nat) (nd : FNode)
    (h : fget k' m = some nd) :
    fget k' (fupd v (fun x => { x with hasParent := true })
      (fupd u (fun x => { x with childIds := x.childIds ++ [v] }) m)) =
      some ⟨nd.name, nd.attrs,
        nd.childIds ++ (if u = k' then [v] else []),
        nd.hasParent || decide (v = k')⟩ := by
  by_cases huk : k' = u
  · subst huk
    by_cases hvk : k' = v
    · subst hvk
      rw [fget_fupd_self, fget_fupd_self, h]
      cases nd
      simp
    · rw [fget_fupd_ne _ _ _ _ hvk, fget_fupd_self, h]
      cases nd
      simp [Ne.symm hvk]
  · by_cases hvk : k' = v
    · subst hvk
      rw [fget_fupd_self, fget_fupd_ne _ _ _ _ huk, h]
      cases nd
      simp [Ne.symm huk]
    · rw [fget_fupd_ne _ _ _ _ hvk, fget_fupd_ne _ _ _ _ huk, h]
      cases nd
      simp [Ne.symm huk, Ne.symm hvk]

/-- One relationship's effect on any entry: the name is unchanged and
the parent flag is set exactly when this relationship marks the entry
(both endpoints known, `parent` kind, entry is the `related_user_id`). -/
theorem fRelStep_fields (m : FMap) (r : Rel) (k' : Nat) (nd : FNode)
    (h : fget k' m = some nd) :
    ∃ a1 cs, fget k' (fRelStep m r) =
      some ⟨nd.name, a1, cs,
        nd.hasParent || fMarkedBy (keysOfF m) r k'⟩ := by
  by_cases hpar : r.relationship = "parent"
  · have hnsp : ¬ r.relationship = "spouse" := by
      rw [hpar]
      intro hc
      exact absurd hc (by decide)
    unfold fRelStep
    try simp only []
    rw [if_pos hpar, if_neg hnsp]
    cases hu : fget r.user_id m with
    | none =>
      have hun : ¬ r.user_id ∈ keysOfF m := (fget_none_iff_not_mem _ _).mp hu
      have hmb : fMarkedBy (keysOfF m) r k' = false := by
        unfold fMarkedBy
        simp [hun]
      rw [hmb]
      refine ⟨nd.attrs, nd.childIds, ?_⟩
      show fget k' m = some ⟨nd.name, nd.attrs, nd.childIds, nd.hasParent || false⟩
      rw [h]
      cases nd
      simp
    | some u' =>
      cases hv : fget r.related_user_id m with
      | none =>
        have hvn : ¬ r.related_user_id ∈ keysOfF m :=
          (fget_none_iff_not_mem _ _).mp hv
        have hmb : fMarkedBy (keysOfF m) r k' = false := by
          unfold fMarkedBy
          simp [hvn]
        rw [hmb]
        refine ⟨nd.attrs, nd.childIds, ?_⟩
        show fget k' m = some ⟨nd.name, nd.attrs, nd.childIds, nd.hasParent || false⟩
        rw [h]
        cases nd
        simp
      | some v' =>
        have hum : r.user_id ∈ keysOfF m := by
          rw [← fget_isSome_iff_mem, hu]
          rfl
        have hvm : r.related_user_id ∈ keysOfF m := by
          rw [← fget_isSome_iff_mem, hv]
          rfl
        have hmb : fMarkedBy (keysOfF m) r k' =
            decide (r.related_user_id = k') := by
          unfold fMarkedBy
          simp [hpar, hum, hvm]
        rw [hmb]
        refine ⟨nd.attrs,
          nd.childIds ++ (if r.user_id = k' then [r.related_user_id] else []),
          ?_⟩
        exact fparent_upd_fields m r.user_id r.related_user_id k' nd h
  · have hmb : fMarkedBy (keysOfF m) r k' = false := by
      unfold fMarkedBy
      simp [hpar]
    rw [hmb]
    unfold fRelStep
    try simp only []
    rw [if_neg hpar]
    repeat' split
    all_goals first
      | exact (fupd_attrs_fields _ _ _ _ _ h).imp
          (fun a1 h1 => by rw [h1]; simp)
      | exact ⟨nd.attrs, nd.childIds, by rw [h]; cases nd; simp⟩

theorem keysOfF_relsFold :
    ∀ (rs : List Rel) (m : FMap),
      keysOfF (rs.foldl fRelStep m) = keysOfF m := by
  intro rs
  induction rs with
  | nil => intro m; rfl
  | cons r rest ih =>
    intro m
    rw [List.foldl_cons, ih, keysOfF_fRelStep]

/-- Folding all relationships: the parent flag accumulates edge by edge. -/
theorem fRelsFold_fields :
    ∀ (rs : List Rel) (m : FMap) (k' : Nat) (nd : FNode),
      fget k' m = some nd →
      ∃ a1 cs, fget k' (rs.foldl fRelStep m) =
        some ⟨nd.name, a1, cs,
          nd.hasParent || rs.any (fun r => fMarkedBy (keysOfF m) r k')⟩ := by
  intro rs
  induction rs with
  | nil =>
    intro m k' nd h
    refine ⟨nd.attrs, nd.childIds, ?_⟩
    simp only [List.foldl_nil, List.any_nil, Bool.or_false]
    rw [h]
  | cons r rest ih =>
    intro m k' nd h
    rw [List.foldl_cons]
    obtain ⟨a1, cs1, h1⟩ := fRelStep_fields m r k' nd h
    obtain ⟨a2, cs2, h2⟩ := ih (fRelStep m r) k' _ h1
    rw [keysOfF_fRelStep] at h2
    refine ⟨a2, cs2, ?_⟩
    rw [h2]
    simp [Bool.or_assoc]

theorem keysOfF_familyMap (members : List Member) (rels : List Rel) :
    keysOfF (familyMap members rels) = sortNat (members.map (·.id)) := by
  unfold familyMap
  rw [keysOfF_relsFold, keysOfF_fInitMap]

theorem insertKeyNat_head (k : Nat) (t : List Nat) :
    (insertKeyNat k t).head? = some k ∨ (insertKeyNat k t).head? = t.head? := by
  cases t with
  | nil => left; rfl
  | cons b u =>
    by_cases h1 : k < b
    · left
      simp [insertKeyNat, h1]
    · by_cases h2 : k = b
      · left
        simp [insertKeyNat, h1, h2]
      · right
        simp [insertKeyNat, h1, h2]

theorem insertKeyNat_chain (k : Nat) :
    ∀ (l : List Nat), List.Chain' (· < ·) l →
      List.Chain' (· < ·) (insertKeyNat k l) := by
  intro l
  induction l with
  | nil =>
    intro _
    simp [insertKeyNat]
  | cons a t ih =>
    intro hch
    obtain ⟨hhead, htail⟩ := List.chain'_cons'.mp hch
    by_cases hlt : k < a
    · simp only [insertKeyNat, if_pos hlt]
      refine List.chain'_cons'.mpr ⟨?_, hch⟩
      intro y hy
      simp at hy
      omega
    · by_cases heq : k = a
      · subst heq
        simp only [insertKeyNat, if_neg hlt, if_pos rfl]
        exact hch
      · have hak : a < k := by omega
        simp only [insertKeyNat, if_neg hlt, if_neg heq]
        refine List.chain'_cons'.mpr ⟨?_, ih htail⟩
        intro y hy
        rcases insertKeyNat_head k t with hh | hh
        · rw [hh] at hy
          simp at hy
          omega
        · rw [hh] at hy
          exact hhead y hy

theorem sortNat_chain (l : List Nat) : List.Chain' (· < ·) (sortNat l) := by
  unfold sortNat
  suffices h : ∀ (l acc : List Nat), List.Chain' (· < ·) acc →
      List.Chain' (· < ·) (l.foldl (fun acc k => insertKeyNat k acc) acc) from
    h l [] (by simp)
  intro l
  induction l with
  | nil =>
    intro acc h
    exact h
  | cons a t ih =>
    intro acc h
    rw [List.foldl_cons]
    exact ih _ (insertKeyNat_chain a acc h)

theorem sortNat_nodup (l : List Nat) : (sortNat l).Nodup := by
  have hp : (sortNat l).Pairwise (· < ·) :=
    List.chain'_iff_pairwise.mp (sortNat_chain l)
  exact hp.imp (fun hlt => Nat.ne_of_lt hlt)

/-- Every entry of the processed family map: the parent flag records
whether some `parent` relationship with known endpoints points at it. -/
theorem familyMap_entry (members : List Member) (rels : List Rel)
    (hnd : (members.map (·.id)).Nodup) :
    ∀ kv ∈ familyMap members rels,
      kv.2.hasParent = fAttached (members.map (·.id)) rels kv.1 := by
  intro kv hmem
  have hknd : (keysOfF (familyMap members rels)).Nodup := by
    rw [keysOfF_familyMap]
    exact sortNat_nodup _
  have hget := fget_of_mem_nodup _ kv hmem hknd
  have hkmem : kv.1 ∈ keysOfF (familyMap members rels) := by
    rw [← fget_isSome_iff_mem, hget]
    rfl
  rw [keysOfF_familyMap, mem_sortNat] at hkmem
  obtain ⟨mb, hmb, hmbk⟩ := List.mem_map.mp hkmem
  have hinit : fget kv.1 (fInitMap members) = some (fInitNode mb) := by
    rw [← hmbk]
    exact fInitMap_entry members hnd mb hmb
  obtain ⟨a1, cs, hfin⟩ := fRelsFold_fields rels (fInitMap members) kv.1 _ hinit
  unfold familyMap at hget
  rw [hget] at hfin
  have heq := Option.some.inj hfin
  rw [heq]
  have hfun : (fun r => fMarkedBy (keysOfF (fInitMap members)) r kv.1) =
      (fun r => fMarkedBy (members.map (·.id)) r kv.1) :=
    funext (fun r => fMarkedBy_congr _ _ r kv.1
      (fun x => by rw [keysOfF_fInitMap, mem_sortNat]))
  simp only [hfun]
  simp [fInitNode, fAttached]

theorem fRootEntries_map_fst (m : FMap) (P : Nat → Bool)
    (h : ∀ kv ∈ m, kv.2.hasParent = P kv.1) :
    (fRootEntries m).map (·.1) = (keysOfF m).filter (fun k => !P k) := by
  induction m with
  | nil => rfl
  | cons kv t ih =>
    have hkv := h kv (List.mem_cons_self _ _)
    have ih' := ih (fun q hq => h q (List.mem_cons_of_mem _ hq))
    simp only [fRootEntries, keysOfF] at ih' ⊢
    simp only [List.filter_cons, List.map_cons, hkv]
    cases hP : P kv.1 <;> simp [ih']

theorem fRootIds_eq (members : List Member) (rels : List Rel)
    (hnd : (members.map (·.id)).Nodup) :
    (fRootEntries (familyMap members rels)).map (·.1) =
      fRootIds members rels := by
  have h := fRootEntries_map_fst (familyMap members rels)
    (fun k => fAttached (members.map (·.id)) rels k)
    (fun kv hkv => familyMap_entry members rels hnd kv hkv)
  rw [h, keysOfF_familyMap]
  rfl

/-- C3 (amended): for inputs with distinct ids, both tree builders return
absence on empty input, return a sole root directly with no wrapper, and
wrap N ≥ 2 roots under a synthetic node ("Ancestors" / "Family", empty
attributes) — but the roots come in JS object key-enumeration order:
input order for the gedcom variant (string keys), ascending member-id
order for the family variant (integer-like keys), not first-encountered
order in the latter. -/
theorem c3_amended (people : List GPerson) (families : List GFamIn)
    (members : List Member) (rels : List Rel)
    (hg : (people.map (·.gedcom_id)).Nodup)
    (hf : (members.map (·.id)).Nodup) :
    (people = [] → buildGedcomTree people families = none) ∧
    (∀ r, gRootIds people families = [r] →
      buildGedcomTree people families =
        some (matNode (gedcomMap people families) people.length r)) ∧
    (2 ≤ (gRootIds people families).length →
      buildGedcomTree people families =
        some (TreeNode.mk "Ancestors" []
          ((gRootIds people families).map
            (matNode (gedcomMap people families) people.length)))) ∧
    (members = [] → buildFamilyTree members rels = none) ∧
    (∀ r, fRootIds members rels = [r] →
      buildFamilyTree members rels =
        some (fmatNode (familyMap members rels) members.length r)) ∧
    (2 ≤ (fRootIds members rels).length →
      buildFamilyTree members rels =
        some (TreeNode.mk "Family" []
          ((fRootIds members rels).map
            (fmatNode (familyMap members rels) members.length)))) := by
  refine ⟨?_, ?_, ?_, ?_, ?_, ?_⟩
  · intro he
    subst he
    rfl
  · intro r hr
    have hne : people ≠ [] := by
      intro he
      subst he
      simp [gRootIds] at hr
    have hlen : ¬ people.length = 0 := by
      intro h0
      exact hne (List.length_eq_zero.mp h0)
    have hmap := gRootIds_eq people families hg
    rw [hr] at hmap
    unfold buildGedcomTree
    try simp only []
    rw [if_neg hlen]
    cases hre : rootEntries (gedcomMap people families) with
    | nil =>
      rw [hre] at hmap
      simp at hmap
    | cons kv t =>
      cases t with
      | nil =>
        rw [hre] at hmap
        have hk : kv.1 = r := by simpa using hmap
        show some (matNode (gedcomMap people families) people.length kv.1) =
          some (matNode (gedcomMap people families) people.length r)
        rw [hk]
      | cons kv2 t2 =>
        rw [hre] at hmap
        simp at hmap
  · intro h2
    have hlen : ¬ people.length = 0 := by
      intro h0
      have he := List.length_eq_zero.mp h0
      subst he
      simp [gRootIds] at h2
    have hmap := gRootIds_eq people families hg
    unfold buildGedcomTree
    try simp only []
    rw [if_neg hlen]
    cases hre : rootEntries (gedcomMap people families) with
    | nil =>
      rw [hre] at hmap
      rw [← hmap] at h2
      simp at h2
    | cons kv t =>
      cases t with
      | nil =>
        rw [hre] at hmap
        rw [← hmap] at h2
        simp at h2
      | cons kv2 t2 =>
        rw [hre] at hmap
        show some (TreeNode.mk "Ancestors" []
            ((kv :: kv2 :: t2).map
              (fun q => matNode (gedcomMap people families) people.length q.1))) = _
        rw [← hmap, List.map_map]
        rfl
  · intro he
    subst he
    rfl
  · intro r hr
    have hne : members ≠ [] := by
      intro he
      subst he
      simp [fRootIds, sortNat] at hr
    have hlen : ¬ members.length = 0 := by
      intro h0
      exact hne (List.length_eq_zero.mp h0)
    have hmap := fRootIds_eq members rels hf
    rw [hr] at hmap
    unfold buildFamilyTree
    try simp only []
    rw [if_neg hlen]
    cases hre : fRootEntries (familyMap members rels) with
    | nil =>
      rw [hre] at hmap
      simp at hmap
    | cons kv t =>
      cases t with
      | nil =>
        rw [hre] at hmap
        have hk : kv.1 = r := by simpa using hmap
        show some (fmatNode (familyMap members rels) members.length kv.1) =
          some (fmatNode (familyMap members rels) members.length r)
        rw [hk]
      | cons kv2 t2 =>
        rw [hre] at hmap
        simp at hmap
  · intro h2
    have hlen : ¬ members.length = 0 := by
      intro h0
      have he := List.length_eq_zero.mp h0
      subst he
      simp [fRootIds, sortNat] at h2
    have hmap := fRootIds_eq members rels hf
    unfold buildFamilyTree
    try simp only []
    rw [if_neg hlen]
    cases hre : fRootEntries (familyMap members rels) with
    | nil =>
      rw [hre] at hmap
      rw [← hmap] at h2
      simp at h2
    | cons kv t =>
      cases t with
      | nil =>
        rw [hre] at hmap
        rw [← hmap] at h2
        simp at h2
      | cons kv2 t2 =>
        rw [hre] at hmap
        show some (TreeNode.mk "Family" []
            ((kv :: kv2 :: t2).map
              (fun q => fmatNode (familyMap members rels) members.length q.1))) = _
        rw [← hmap, List.map_map]
        rfl

theorem c3_amended_witness :
    (c3gPeople.map (·.gedcom_id)).Nodup ∧
    (c3Members.map (·.id)).Nodup ∧
    2 ≤ (gRootIds c3gPeople []).length ∧
    2 ≤ (fRootIds c3Members []).length ∧
    buildGedcomTree c3gPeople [] =
      some (TreeNode.mk "Ancestors" []
        ((gRootIds c3gPeople []).map
          (matNode (gedcomMap c3gPeople []) c3gPeople.length))) ∧
    buildFamilyTree c3Members [] =
      some (TreeNode.mk "Family" []
        ((fRootIds c3Members []).map
          (fmatNode (familyMap c3Members []) c3Members.length))) := by
  refine ⟨by decide, by decide, by decide, by decide, ?_, ?_⟩
  · exact (c3_amended c3gPeople [] c3Members []
      (by decide) (by decide)).2.2.1 (by decide)
  · exact (c3_amended c3gPeople [] c3Members []
      (by decide) (by decide)).2.2.2.2.2 (by decide)

end AncestryAtlas
